import Mathlib

/-!
# Packed marshaling format: constants, stream cursor and encoder

A shallow embedding of the packed wire-format constants (`PackedFormat`) and of the
chunked stream cursor of `PackedDecode` from `Sla/CORE/marshal.hh`, with a model of the
operations of `PackedEncode` and of `PackedDecode::readInteger`, which the header only
declares.

* Byte values (`uint1`) are natural numbers; bit operations are those of `Nat`.
* Byte pointers (`uint1 *`) are integer addresses and the heap is a function from
  addresses to byte values.
* `list<ByteChunk>` is a `List ByteChunk`; a `list<ByteChunk>::const_iterator` is the
  index of the designated element, `inStream.end()` being `inStream.length`.
* A method taking `Position &pos` returns the outcome of the call together with the
  position as the call leaves it, also when the call throws.
* The output stream of the encoder is the list of bytes written so far, and a string is
  the list of its bytes.
-/

namespace PackedFormat

/-- Bits encoding the record type -/
def HEADER_MASK : Nat := 0xc0
/-- Header for an element start record -/
def ELEMENT_START : Nat := 0x40
/-- Header for an element end record -/
def ELEMENT_END : Nat := 0x80
/-- Header for an attribute record -/
def ATTRIBUTE : Nat := 0xc0
/-- Bit indicating the id extends into the next byte -/
def HEADEREXTEND_MASK : Nat := 0x20
/-- Bits encoding (part of) the id in the record header -/
def ELEMENTID_MASK : Nat := 0x1f
/-- Bits of raw data in follow-on bytes -/
def RAWDATA_MASK : Nat := 0x7f
/-- Number of bits used in a follow-on byte -/
def RAWDATA_BITSPERBYTE : Nat := 7
/-- The unused bit in follow-on bytes (always set to 1) -/
def RAWDATA_MARKER : Nat := 0x80
/-- Bit position of the type code in the type byte -/
def TYPECODE_SHIFT : Nat := 4
/-- Bits in the type byte forming the length code -/
def LENGTHCODE_MASK : Nat := 0xf
/-- Type code for the boolean type -/
def TYPECODE_BOOLEAN : Nat := 1
/-- Type code for the signed positive integer type -/
def TYPECODE_SIGNEDINT_POSITIVE : Nat := 2
/-- Type code for the signed negative integer type -/
def TYPECODE_SIGNEDINT_NEGATIVE : Nat := 3
/-- Type code for the unsigned integer type -/
def TYPECODE_UNSIGNEDINT : Nat := 4
/-- Type code for the address space type -/
def TYPECODE_ADDRESSSPACE : Nat := 5
/-- Type code for the special address space type -/
def TYPECODE_SPECIALSPACE : Nat := 6
/-- Type code for the string type -/
def TYPECODE_STRING : Nat := 7

end PackedFormat

/-- The exception type of the decoder, carrying its explanation. -/
structure DecoderError where
  explain : String
deriving DecidableEq, Repr

/-- How a call ends: it returns a value, it throws a `DecoderError`, or it steps outside
what the language defines (an iterator moved or dereferenced past `inStream.end()`). -/
inductive Outcome (α : Type) where
  | value (a : α)
  | raise (e : DecoderError)
  | undefined
deriving DecidableEq, Repr

namespace PackedDecode

/-- The heap: the byte stored at each address. -/
abbrev Memory := Int → Nat

/-- A bounded array of bytes: the addresses `start` (first byte) and `end_` (one past the
last byte). -/
structure ByteChunk where
  start : Int
  end_ : Int
deriving DecidableEq, Repr

/-- An iterator into the input stream. -/
structure Position where
  seqIter : Nat
  current : Int
  end_ : Int
deriving DecidableEq, Repr

/-- Conversion of an integer to `int4` (two's complement, 32 bits). -/
def toInt4 (x : Int) : Int := (x + 2 ^ 31) % 2 ^ 32 - 2 ^ 31

/-- The message of the only error the cursor operations raise. -/
def endOfStream : DecoderError := ⟨"Unexpected end of stream"⟩

/-- Get the byte at the current position, do not advance. -/
def getByte (mem : Memory) (pos : Position) : Nat × Position :=
  (mem pos.current, pos)

/-- Get the byte following the current byte, do not advance position. -/
def getBytePlus1 (inStream : List ByteChunk) (mem : Memory) (pos : Position) :
    Outcome Nat × Position :=
  let ptr := pos.current + 1
  if ptr = pos.end_ then
    let iter := pos.seqIter + 1
    if iter = inStream.length then
      (Outcome.raise endOfStream, pos)
    else
      if h : iter < inStream.length then
        (Outcome.value (mem inStream[iter].start), pos)
      else
        (Outcome.undefined, pos)
  else
    (Outcome.value (mem ptr), pos)

/-- Get the byte at the current position and advance to the next byte. -/
def getNextByte (inStream : List ByteChunk) (mem : Memory) (pos : Position) :
    Outcome Nat × Position :=
  let res := mem pos.current
  let pos1 : Position := { pos with current := pos.current + 1 }
  if pos1.current ≠ pos1.end_ then
    (Outcome.value res, pos1)
  else
    let pos2 : Position := { pos1 with seqIter := pos1.seqIter + 1 }
    if pos2.seqIter = inStream.length then
      (Outcome.raise endOfStream, pos2)
    else
      if h : pos2.seqIter < inStream.length then
        let c := inStream[pos2.seqIter]
        (Outcome.value res, { pos2 with current := c.start, end_ := c.end_ })
      else
        (Outcome.undefined, pos2)

/-- Advance the position by the given number of bytes. Each turn of the loop moves
`seqIter` one chunk closer to `inStream.end()`. -/
def advancePosition (inStream : List ByteChunk) (pos : Position) (skip : Int) :
    Outcome Unit × Position :=
  if pos.end_ - pos.current ≤ skip then
    let skip1 := toInt4 (skip - (pos.end_ - pos.current))
    let pos1 : Position := { pos with seqIter := pos.seqIter + 1 }
    if pos1.seqIter = inStream.length then
      (Outcome.raise endOfStream, pos1)
    else
      if h : pos1.seqIter < inStream.length then
        let c := inStream[pos1.seqIter]
        advancePosition inStream { pos1 with current := c.start, end_ := c.end_ } skip1
      else
        (Outcome.undefined, pos1)
  else
    (Outcome.value (), { pos with current := pos.current + skip })
termination_by inStream.length - pos.seqIter
decreasing_by
  simp only at h ⊢
  omega

/-- Extract length code from type byte. -/
def readLengthCode (typeByte : Nat) : Nat :=
  typeByte &&& PackedFormat.LENGTHCODE_MASK

/-! ## The stream as a sequence of bytes -/

/-- Number of bytes of a chunk. -/
def chunkLen (c : ByteChunk) : Nat := (c.end_ - c.start).toNat

/-- The bytes of a chunk, read from the heap between `start` and `end_`. -/
def chunkBytes (mem : Memory) (c : ByteChunk) : List Nat :=
  (List.range (chunkLen c)).map (fun (j : Nat) => mem (c.start + (j : Int)))

/-- The concatenation of the chunks of the stream. -/
def streamBytes (mem : Memory) (inStream : List ByteChunk) : List Nat :=
  (inStream.map (chunkBytes mem)).flatten

/-- The number `N` of bytes of the stream. -/
def streamLen (inStream : List ByteChunk) : Nat := (inStream.map chunkLen).sum

/-- Total length of the first `k` chunks. -/
def prefixLen (inStream : List ByteChunk) (k : Nat) : Nat :=
  ((inStream.take k).map chunkLen).sum

/-- Every chunk of the stream holds at least one byte. -/
def NonEmptyChunks (inStream : List ByteChunk) : Prop :=
  ∀ c ∈ inStream, c.start < c.end_

/-- A position is valid when `seqIter` designates a chunk `c` of the stream, `end_` is
`c.end_` and `current` lies in `[c.start, c.end_)`. -/
def Valid (inStream : List ByteChunk) (pos : Position) : Prop :=
  match inStream[pos.seqIter]? with
  | some c => pos.end_ = c.end_ ∧ c.start ≤ pos.current ∧ pos.current < c.end_
  | none => False

/-- The stream index of a position: the total length of the chunks before its chunk plus
the offset of `current` in its chunk. -/
def streamIndex (inStream : List ByteChunk) (pos : Position) : Nat :=
  match inStream[pos.seqIter]? with
  | some c => prefixLen inStream pos.seqIter + (pos.current - c.start).toNat
  | none => prefixLen inStream pos.seqIter

/-- The position of the first byte of the stream. -/
def firstPosition (inStream : List ByteChunk) : Position :=
  match inStream with
  | [] => { seqIter := 0, current := 0, end_ := 0 }
  | c :: _ => { seqIter := 0, current := c.start, end_ := c.end_ }

/-- The outcomes of `n` successive calls of `getNextByte`, each call starting from the
position the previous one left, and the position after the last call. -/
def nextBytes (inStream : List ByteChunk) (mem : Memory) :
    Nat → Position → List (Outcome Nat) × Position
  | 0, pos => ([], pos)
  | n + 1, pos =>
    let r := getNextByte inStream mem pos
    let rs := nextBytes inStream mem n r.2
    (r.1 :: rs.1, rs.2)

instance (inStream : List ByteChunk) : Decidable (NonEmptyChunks inStream) := by
  unfold NonEmptyChunks; infer_instance

instance (inStream : List ByteChunk) (pos : Position) : Decidable (Valid inStream pos) := by
  unfold Valid; split <;> infer_instance

end PackedDecode

/-! ## A sample stream -/

/-- A stream of five bytes held in two chunks, of two and three bytes. -/
def sampleStream : List PackedDecode.ByteChunk := [⟨100, 102⟩, ⟨200, 203⟩]

/-- A heap whose byte at address `a` is `a mod 256`. -/
def sampleMemory : PackedDecode.Memory := fun a => (a % 256).toNat

/-- A stream of one byte, at address 100. -/
def oneByteStream : List PackedDecode.ByteChunk := [⟨100, 101⟩]

/-! ## The packed encoder -/

/-- An annotation for a data element: a name and the integer id it is sent under. -/
structure AttributeId where
  name : String
  id : Nat
deriving DecidableEq, Repr

/-- An annotation for a specific collection of hierarchical data: a name and its id. -/
structure ElementId where
  name : String
  id : Nat
deriving DecidableEq, Repr

namespace PackedEncode

open PackedFormat

/-- Modelled from the spec: `PackedEncode::writeHeader` is declared in `marshal.hh` and its
body is not part of the sources. The header byte carries the record kind in its top two
bits and the low 5 bits of the id; the one-byte form is used when `id < 32`, otherwise the
extend flag is set and one follow-on byte `1iiiiiii` carries 7 more id bits. The output
stream is the list of bytes written so far. -/
def writeHeader (outStream : List Nat) (header : Nat) (id : Nat) : List Nat :=
  if id < 32 then
    outStream ++ [header ||| id]
  else
    outStream ++ [header ||| HEADEREXTEND_MASK ||| (id &&& ELEMENTID_MASK),
      RAWDATA_MARKER ||| ((id >>> 5) &&& RAWDATA_MASK)]

/-- Modelled from the spec: `PackedEncode::openElement` (body not part of the sources)
emits the element-start header of the element id. -/
def openElement (outStream : List Nat) (elemId : ElementId) : List Nat :=
  writeHeader outStream ELEMENT_START elemId.id

/-- Modelled from the spec: `PackedEncode::closeElement` (body not part of the sources)
emits the element-end header of the element id. -/
def closeElement (outStream : List Nat) (elemId : ElementId) : List Nat :=
  writeHeader outStream ELEMENT_END elemId.id

/-- Modelled from the spec: `PackedEncode::writeBool` (body not part of the sources) emits
the attribute header, then the type byte `(1 << 4) | (v ? 1 : 0)`. -/
def writeBool (outStream : List Nat) (attribId : AttributeId) (val : Bool) : List Nat :=
  writeHeader outStream ATTRIBUTE attribId.id ++
    [(TYPECODE_BOOLEAN <<< TYPECODE_SHIFT) ||| (if val then 1 else 0)]

end PackedEncode

namespace PackedFormat

/-- Special code for the stack space -/
def SPECIALSPACE_STACK : Nat := 0
/-- Special code for the join space -/
def SPECIALSPACE_JOIN : Nat := 1
/-- Special code for the fspec space -/
def SPECIALSPACE_FSPEC : Nat := 2
/-- Special code for the iop space -/
def SPECIALSPACE_IOP : Nat := 3
/-- Special code for a spacebase space -/
def SPECIALSPACE_SPACEBASE : Nat := 4

/-- The number of groups of `RAWDATA_BITSPERBYTE` bits of a value, counted by shifting the
value right one group at a time until nothing is left. -/
def groupCount (v : Nat) : Nat :=
  if h : v = 0 then 0 else groupCount (v >>> RAWDATA_BITSPERBYTE) + 1
termination_by v
decreasing_by
  rw [Nat.shiftRight_eq_div_pow]
  exact Nat.div_lt_self (Nat.pos_of_ne_zero h) (by decide)

end PackedFormat

/-- Modelled from the spec: the address-space manager's classification of an address space
(the `AddrSpace` class is not part of the sources): a basic space with its index in the
table of spaces, or one of the five special spaces. -/
inductive AddrSpace where
  | basic (index : Nat)
  | stack
  | join
  | fspec
  | iop
  | spacebase
deriving DecidableEq, Repr

namespace PackedEncode

open PackedFormat

/-- Modelled from the spec: the follow-on bytes of `PackedEncode::writeInteger` (body not
part of the sources): `len` groups of 7 bits of `val`, the most significant group first,
each OR'd with the marker bit. -/
def followOnBytes (val : Nat) (len : Nat) : List Nat :=
  (List.range len).reverse.map
    (fun (k : Nat) => RAWDATA_MARKER ||| ((val >>> (RAWDATA_BITSPERBYTE * k)) &&& RAWDATA_MASK))

/-- Modelled from the spec: `PackedEncode::writeInteger` (body not part of the sources) emits
the type byte with the minimum number of 7-bit groups of the value as its length code, then
that many follow-on bytes; the value 0 has length code 0 and no follow-on byte. -/
def writeInteger (outStream : List Nat) (typeByte : Nat) (val : Nat) : List Nat :=
  outStream ++ [typeByte ||| groupCount val] ++ followOnBytes val (groupCount val)

/-- Modelled from the spec: `PackedEncode::writeSignedInteger` (body not part of the sources)
emits the attribute header, then the value in positive form, or in negated form when it is
negative. -/
def writeSignedInteger (outStream : List Nat) (attribId : AttributeId) (val : Int) : List Nat :=
  if val < 0 then
    writeInteger (writeHeader outStream ATTRIBUTE attribId.id)
      (TYPECODE_SIGNEDINT_NEGATIVE <<< TYPECODE_SHIFT) (-val).toNat
  else
    writeInteger (writeHeader outStream ATTRIBUTE attribId.id)
      (TYPECODE_SIGNEDINT_POSITIVE <<< TYPECODE_SHIFT) val.toNat

/-- Modelled from the spec: `PackedEncode::writeUnsignedInteger` (body not part of the
sources) emits the attribute header, then the value as an unsigned integer. -/
def writeUnsignedInteger (outStream : List Nat) (attribId : AttributeId) (val : Nat) :
    List Nat :=
  writeInteger (writeHeader outStream ATTRIBUTE attribId.id)
    (TYPECODE_UNSIGNEDINT <<< TYPECODE_SHIFT) val

/-- Modelled from the spec: `PackedEncode::writeString` (body not part of the sources) emits
the attribute header, the length of the string as an integer under the string type code,
then the bytes of the string as they are. A string is the list of its bytes. -/
def writeString (outStream : List Nat) (attribId : AttributeId) (val : List Nat) : List Nat :=
  writeInteger (writeHeader outStream ATTRIBUTE attribId.id)
    (TYPECODE_STRING <<< TYPECODE_SHIFT) val.length ++ val

/-- Modelled from the spec: `PackedEncode::writeStringIndexed` (body not part of the sources)
encodes an index followed by the string: after the attribute header, the index as an
unsigned integer, then the string as `writeString` stores it. -/
def writeStringIndexed (outStream : List Nat) (attribId : AttributeId) (index : Nat)
    (val : List Nat) : List Nat :=
  writeInteger
    (writeInteger (writeHeader outStream ATTRIBUTE attribId.id)
      (TYPECODE_UNSIGNEDINT <<< TYPECODE_SHIFT) index)
    (TYPECODE_STRING <<< TYPECODE_SHIFT) val.length ++ val

/-- Modelled from the spec: `PackedEncode::writeSpace` (body not part of the sources) emits
the attribute header, then type 5 with the index of a basic space, or type 6 with the code of
a special space as length code. -/
def writeSpace (outStream : List Nat) (attribId : AttributeId) (spc : AddrSpace) : List Nat :=
  match spc with
  | AddrSpace.basic index =>
    writeInteger (writeHeader outStream ATTRIBUTE attribId.id)
      (TYPECODE_ADDRESSSPACE <<< TYPECODE_SHIFT) index
  | AddrSpace.stack =>
    writeHeader outStream ATTRIBUTE attribId.id ++
      [(TYPECODE_SPECIALSPACE <<< TYPECODE_SHIFT) ||| SPECIALSPACE_STACK]
  | AddrSpace.join =>
    writeHeader outStream ATTRIBUTE attribId.id ++
      [(TYPECODE_SPECIALSPACE <<< TYPECODE_SHIFT) ||| SPECIALSPACE_JOIN]
  | AddrSpace.fspec =>
    writeHeader outStream ATTRIBUTE attribId.id ++
      [(TYPECODE_SPECIALSPACE <<< TYPECODE_SHIFT) ||| SPECIALSPACE_FSPEC]
  | AddrSpace.iop =>
    writeHeader outStream ATTRIBUTE attribId.id ++
      [(TYPECODE_SPECIALSPACE <<< TYPECODE_SHIFT) ||| SPECIALSPACE_IOP]
  | AddrSpace.spacebase =>
    writeHeader outStream ATTRIBUTE attribId.id ++
      [(TYPECODE_SPECIALSPACE <<< TYPECODE_SHIFT) ||| SPECIALSPACE_SPACEBASE]

/-- One call on the encoder, with its arguments. -/
inductive Op where
  | openElement (elemId : ElementId)
  | closeElement (elemId : ElementId)
  | writeBool (attribId : AttributeId) (val : Bool)
  | writeSignedInteger (attribId : AttributeId) (val : Int)
  | writeUnsignedInteger (attribId : AttributeId) (val : Nat)
  | writeString (attribId : AttributeId) (val : List Nat)
  | writeStringIndexed (attribId : AttributeId) (index : Nat) (val : List Nat)
  | writeSpace (attribId : AttributeId) (spc : AddrSpace)
deriving DecidableEq, Repr

/-- The output stream after one call. -/
def Op.apply (outStream : List Nat) : Op → List Nat
  | Op.openElement elemId => PackedEncode.openElement outStream elemId
  | Op.closeElement elemId => PackedEncode.closeElement outStream elemId
  | Op.writeBool attribId val => PackedEncode.writeBool outStream attribId val
  | Op.writeSignedInteger attribId val => PackedEncode.writeSignedInteger outStream attribId val
  | Op.writeUnsignedInteger attribId val =>
    PackedEncode.writeUnsignedInteger outStream attribId val
  | Op.writeString attribId val => PackedEncode.writeString outStream attribId val
  | Op.writeStringIndexed attribId index val =>
    PackedEncode.writeStringIndexed outStream attribId index val
  | Op.writeSpace attribId spc => PackedEncode.writeSpace outStream attribId spc

/-- The bytes a sequence of calls writes to an output stream that starts empty. -/
def encode (ops : List Op) : List Nat := ops.foldl Op.apply []

/-- The bytes of the string argument of a call, if it has one. -/
def Op.stringBytes : Op → List Nat
  | Op.writeString _ val => val
  | Op.writeStringIndexed _ _ val => val
  | _ => []

/-- A sequence of calls is well balanced from a stack of open element ids when every
`closeElement` closes the innermost open element, attributes are written inside an open
element, and no element is left open. -/
def balancedFrom : List Nat → List Op → Bool
  | stack, [] => stack.isEmpty
  | stack, Op.openElement elemId :: rest => balancedFrom (elemId.id :: stack) rest
  | [], Op.closeElement _ :: _ => false
  | top :: below, Op.closeElement elemId :: rest =>
    (top == elemId.id) && balancedFrom below rest
  | stack, _ :: rest => !stack.isEmpty && balancedFrom stack rest

/-- A well-balanced sequence of calls on the encoder. -/
def wellBalanced (ops : List Op) : Bool := balancedFrom [] ops

/-- Modelled from the spec: the id carried by a header (the decoding of a header is not
part of the sources): bits 0 to 4 of the header byte hold the low 5 bits of the id, and when
the extend flag is set the follow-on byte supplies 7 more bits. -/
def headerId (header : Nat) (followOn : Nat) : Nat :=
  if header &&& HEADEREXTEND_MASK = 0 then
    header &&& ELEMENTID_MASK
  else
    ((followOn &&& RAWDATA_MASK) <<< 5) ||| (header &&& ELEMENTID_MASK)

end PackedEncode

namespace PackedDecode

open PackedFormat

/-- Modelled from the spec: the accumulation of `PackedDecode::readInteger` (declared in
`marshal.hh` with result type `uint8`, body not part of the sources) over the follow-on
bytes it reads: each byte shifts the 64-bit result left by `RAWDATA_BITSPERBYTE` and
contributes its 7 data bits. -/
def readInteger (bytes : List Nat) : Nat :=
  bytes.foldl
    (fun (res : Nat) (b : Nat) => ((res <<< RAWDATA_BITSPERBYTE) % 2 ^ 64) ||| (b &&& RAWDATA_MASK))
    0

/-- The call `getNextByte` made `k` times in a row, each call from the position the previous
one left; the sequence ends at the first call that does not return. -/
def getNextByteTimes (inStream : List ByteChunk) (mem : Memory) :
    Nat → Position → Outcome Unit × Position
  | 0, pos => (Outcome.value (), pos)
  | k + 1, pos =>
    match getNextByte inStream mem pos with
    | (Outcome.value _, pos1) => getNextByteTimes inStream mem k pos1
    | (Outcome.raise e, pos1) => (Outcome.raise e, pos1)
    | (Outcome.undefined, pos1) => (Outcome.undefined, pos1)

end PackedDecode

namespace PackedDecode

/-! ## Facts about chunk lengths and stream indices -/

theorem toInt4_of_range (x : Int) (h0 : 0 ≤ x) (h1 : x < 2 ^ 31) : toInt4 x = x := by
  unfold toInt4
  omega

theorem valid_iff (inStream : List ByteChunk) (pos : Position) :
    Valid inStream pos ↔ ∃ c, inStream[pos.seqIter]? = some c ∧ pos.end_ = c.end_ ∧
      c.start ≤ pos.current ∧ pos.current < c.end_ := by
  unfold Valid
  cases inStream[pos.seqIter]? <;> simp

theorem streamIndex_eq (inStream : List ByteChunk) (pos : Position) (c : ByteChunk)
    (hc : inStream[pos.seqIter]? = some c) :
    streamIndex inStream pos = prefixLen inStream pos.seqIter + (pos.current - c.start).toNat := by
  unfold streamIndex
  rw [hc]

theorem prefixLen_succ (inStream : List ByteChunk) (k : Nat) (c : ByteChunk)
    (hc : inStream[k]? = some c) :
    prefixLen inStream (k + 1) = prefixLen inStream k + chunkLen c := by
  unfold prefixLen
  rw [List.take_succ, hc]
  simp

theorem prefixLen_length (inStream : List ByteChunk) :
    prefixLen inStream inStream.length = streamLen inStream := by
  unfold prefixLen streamLen
  rw [List.take_length]

theorem prefixLen_le (inStream : List ByteChunk) (k : Nat) :
    prefixLen inStream k ≤ streamLen inStream := by
  unfold prefixLen streamLen
  conv => rhs; rw [← List.take_append_drop k inStream]
  rw [List.map_append, List.sum_append]
  omega

theorem streamBytes_length (mem : Memory) (inStream : List ByteChunk) :
    (streamBytes mem inStream).length = streamLen inStream := by
  unfold streamBytes streamLen
  rw [List.length_flatten, List.map_map]
  congr 1
  apply List.map_congr_left
  intro c _
  simp [chunkBytes]

theorem chunkBytes_getElem (mem : Memory) (c : ByteChunk) (j : Nat) (hj : j < chunkLen c) :
    (chunkBytes mem c)[j]? = some (mem (c.start + (j : Int))) := by
  unfold chunkBytes
  rw [List.getElem?_map, List.getElem?_range hj]
  rfl

theorem streamBytes_getElem (mem : Memory) (inStream : List ByteChunk) (k : Nat)
    (c : ByteChunk) (hc : inStream[k]? = some c) (j : Nat) (hj : j < chunkLen c) :
    (streamBytes mem inStream)[prefixLen inStream k + j]? = some (mem (c.start + (j : Int))) := by
  induction inStream generalizing k with
  | nil => simp at hc
  | cons d rest ih =>
    have hlen : (chunkBytes mem d).length = chunkLen d := by simp [chunkBytes]
    cases k with
    | zero =>
      simp only [List.getElem?_cons_zero, Option.some.injEq] at hc
      subst hc
      simp only [streamBytes, prefixLen, List.take_zero, List.map_nil, List.sum_nil,
        List.map_cons, List.flatten_cons, Nat.zero_add]
      rw [List.getElem?_append_left (by omega)]
      exact chunkBytes_getElem mem d j hj
    | succ k =>
      simp only [List.getElem?_cons_succ] at hc
      have h := ih k hc
      simp only [streamBytes, prefixLen, List.take_succ_cons, List.map_cons, List.sum_cons,
        List.flatten_cons] at h ⊢
      rw [List.getElem?_append_right (by omega)]
      rw [hlen]
      have : chunkLen d + ((List.take k rest).map chunkLen).sum + j - chunkLen d
          = ((List.take k rest).map chunkLen).sum + j := by omega
      rw [this]
      exact h

/-- What a valid position gives: its chunk, the bounds of `current`, its stream index and
the byte under it. -/
theorem valid_unfold (inStream : List ByteChunk) (mem : Memory) (pos : Position)
    (hv : Valid inStream pos) :
    ∃ c, ∃ hlt : pos.seqIter < inStream.length, inStream[pos.seqIter] = c ∧
      inStream[pos.seqIter]? = some c ∧ pos.end_ = c.end_ ∧
      c.start ≤ pos.current ∧ pos.current < c.end_ ∧
      streamIndex inStream pos = prefixLen inStream pos.seqIter + (pos.current - c.start).toNat ∧
      prefixLen inStream (pos.seqIter + 1) = prefixLen inStream pos.seqIter + chunkLen c ∧
      (streamBytes mem inStream)[streamIndex inStream pos]? = some (mem pos.current) := by
  obtain ⟨c, hc, hend, hlo, hhi⟩ := (valid_iff inStream pos).mp hv
  obtain ⟨hlt, hget⟩ := List.getElem?_eq_some.mp hc
  refine ⟨c, hlt, hget, hc, hend, hlo, hhi, streamIndex_eq inStream pos c hc,
    prefixLen_succ inStream pos.seqIter c hc, ?_⟩
  rw [streamIndex_eq inStream pos c hc]
  have ho : (pos.current - c.start).toNat < chunkLen c := by
    unfold chunkLen
    omega
  rw [streamBytes_getElem mem inStream pos.seqIter c hc _ ho]
  congr 2
  omega

/-- The position on the first byte of chunk `k` is valid and its stream index is the total
length of the chunks before it. -/
theorem valid_chunk_start (inStream : List ByteChunk) (hne : NonEmptyChunks inStream)
    (k : Nat) (hk : k < inStream.length) :
    Valid inStream ⟨k, inStream[k].start, inStream[k].end_⟩ ∧
      streamIndex inStream ⟨k, inStream[k].start, inStream[k].end_⟩ = prefixLen inStream k := by
  have hc : inStream[k]? = some inStream[k] := List.getElem?_eq_getElem hk
  have hpos : inStream[k].start < inStream[k].end_ := hne _ (List.getElem_mem hk)
  constructor
  · rw [valid_iff]
    exact ⟨inStream[k], hc, rfl, le_refl _, hpos⟩
  · rw [streamIndex_eq inStream _ _ hc]
    simp

/-! ## Behaviour of the cursor operations on valid positions -/

/-- Reading below the last byte: `getNextByte` returns the byte under the position and
moves to the next stream index. -/
theorem getNextByte_inner (inStream : List ByteChunk) (mem : Memory) (pos : Position)
    (hne : NonEmptyChunks inStream) (hv : Valid inStream pos)
    (hi : streamIndex inStream pos + 1 < streamLen inStream) :
    ∃ pos1, getNextByte inStream mem pos = (Outcome.value (mem pos.current), pos1) ∧
      Valid inStream pos1 ∧ streamIndex inStream pos1 = streamIndex inStream pos + 1 ∧
      (pos.current + 1 = pos.end_ → ∃ c, inStream[pos.seqIter + 1]? = some c ∧
        pos1 = ⟨pos.seqIter + 1, c.start, c.end_⟩) := by
  obtain ⟨c, hlt, hget, hc, hend, hlo, hhi, hidx, hpre, -⟩ := valid_unfold inStream mem pos hv
  unfold getNextByte
  by_cases hcur : pos.current + 1 = pos.end_
  · have hlen : chunkLen c = (pos.current - c.start).toNat + 1 := by
      unfold chunkLen
      omega
    have hneq : pos.seqIter + 1 ≠ inStream.length := by
      intro heq
      have := prefixLen_length inStream
      rw [← heq] at this
      omega
    have hlt1 : pos.seqIter + 1 < inStream.length := by omega
    obtain ⟨hv1, hi1⟩ := valid_chunk_start inStream hne (pos.seqIter + 1) hlt1
    refine ⟨⟨pos.seqIter + 1, inStream[pos.seqIter + 1].start, inStream[pos.seqIter + 1].end_⟩,
      ?_, hv1, ?_, ?_⟩
    · simp [hcur, hneq, hlt1]
    · rw [hi1]
      omega
    · intro _
      exact ⟨inStream[pos.seqIter + 1], List.getElem?_eq_getElem hlt1, rfl⟩
  · refine ⟨{ pos with current := pos.current + 1 }, ?_, ?_, ?_, ?_⟩
    · simp [hcur]
    · rw [valid_iff]
      exact ⟨c, hc, hend, by simp only; omega, by simp only; omega⟩
    · have h1 := streamIndex_eq inStream { pos with current := pos.current + 1 } c hc
      rw [h1, hidx]
      simp only
      omega
    · intro h
      exact absurd h hcur

/-- Reading the last byte of the stream: `getNextByte` throws, leaving `seqIter` at
`inStream.end()`. -/
theorem getNextByte_last (inStream : List ByteChunk) (mem : Memory) (pos : Position)
    (hne : NonEmptyChunks inStream) (hv : Valid inStream pos)
    (hi : streamIndex inStream pos + 1 = streamLen inStream) :
    getNextByte inStream mem pos =
      (Outcome.raise endOfStream, ⟨pos.seqIter + 1, pos.current + 1, pos.end_⟩) := by
  obtain ⟨c, hlt, hget, hc, hend, hlo, hhi, hidx, hpre, -⟩ := valid_unfold inStream mem pos hv
  have hle := prefixLen_le inStream (pos.seqIter + 1)
  have hcur : pos.current + 1 = pos.end_ := by
    unfold chunkLen at hpre
    omega
  have hlen : chunkLen c = (pos.current - c.start).toNat + 1 := by
    unfold chunkLen
    omega
  have heq : pos.seqIter + 1 = inStream.length := by
    by_contra hneq
    have hlt1 : pos.seqIter + 1 < inStream.length := by omega
    have hpos := hne _ (List.getElem_mem hlt1)
    have h2 := prefixLen_succ inStream (pos.seqIter + 1) _ (List.getElem?_eq_getElem hlt1)
    have hle2 := prefixLen_le inStream (pos.seqIter + 1 + 1)
    unfold chunkLen at h2
    omega
  unfold getNextByte
  simp [hcur, heq]

/-- The loop of `advancePosition` from a valid position with a skip in `[0, 2^31)`: it
lands on the byte `skip` places further when that byte exists, and throws otherwise. -/
theorem advancePosition_loop (inStream : List ByteChunk) (hne : NonEmptyChunks inStream) :
    ∀ (n : Nat) (pos : Position) (skip : Int), inStream.length - pos.seqIter = n →
      Valid inStream pos → 0 ≤ skip → skip < 2 ^ 31 →
      (streamIndex inStream pos + skip.toNat < streamLen inStream →
        ∃ pos1, advancePosition inStream pos skip = (Outcome.value (), pos1) ∧
          Valid inStream pos1 ∧
          streamIndex inStream pos1 = streamIndex inStream pos + skip.toNat) ∧
      (streamLen inStream ≤ streamIndex inStream pos + skip.toNat →
        ∃ pos1, advancePosition inStream pos skip = (Outcome.raise endOfStream, pos1)) := by
  intro n
  induction n with
  | zero =>
    intro pos skip hn hv
    obtain ⟨c, hlt, -⟩ := valid_unfold inStream (fun _ => 0) pos hv
    omega
  | succ n ih =>
    intro pos skip hn hv h0 h1
    obtain ⟨c, hlt, hget, hc, hend, hlo, hhi, hidx, hpre, -⟩ :=
      valid_unfold inStream (fun _ => 0) pos hv
    have hle := prefixLen_le inStream (pos.seqIter + 1)
    have hclen : (chunkLen c : Int) = c.end_ - c.start := by
      unfold chunkLen
      omega
    rw [advancePosition]
    by_cases hcond : pos.end_ - pos.current ≤ skip
    · have hskip1 : toInt4 (skip - (pos.end_ - pos.current)) = skip - (pos.end_ - pos.current) :=
        toInt4_of_range _ (by omega) (by omega)
      by_cases heq : pos.seqIter + 1 = inStream.length
      · have hN := prefixLen_length inStream
        rw [← heq] at hN
        simp only [hcond, heq, if_true]
        constructor
        · intro hin
          omega
        · intro _
          exact ⟨_, rfl⟩
      · have hlt1 : pos.seqIter + 1 < inStream.length := by omega
        obtain ⟨hv1, hi1⟩ := valid_chunk_start inStream hne (pos.seqIter + 1) hlt1
        simp only [hcond, heq, hlt1, if_true, if_false, dite_true, hskip1]
        have hs0 : 0 ≤ skip - (pos.end_ - pos.current) := by omega
        have hs1 : skip - (pos.end_ - pos.current) < 2 ^ 31 := by omega
        have hn1 : inStream.length - (pos.seqIter + 1) = n := by omega
        have hsum : prefixLen inStream (pos.seqIter + 1) + (skip - (pos.end_ - pos.current)).toNat
            = streamIndex inStream pos + skip.toNat := by omega
        have hrec := ih ⟨pos.seqIter + 1, inStream[pos.seqIter + 1].start,
          inStream[pos.seqIter + 1].end_⟩ (skip - (pos.end_ - pos.current)) hn1 hv1 hs0 hs1
        rw [hi1, hsum] at hrec
        exact hrec
    · simp only [hcond, if_false]
      constructor
      · intro _
        refine ⟨_, rfl, ?_, ?_⟩
        · rw [valid_iff]
          exact ⟨c, hc, hend, by simp only; omega, by simp only; omega⟩
        · have h2 := streamIndex_eq inStream { pos with current := pos.current + skip } c hc
          rw [h2, hidx]
          simp only
          omega
      · intro hout
        omega

/-! ## Claims on the stream cursor -/

/-- C1: from a valid position of stream index `i` with `i + 1 < N`, in a stream of
non-empty chunks whose concatenation has `N` bytes, `getNextByte` returns byte `i` of the
concatenation and leaves a valid position of stream index `i + 1`; when byte `i` is the
last byte of its chunk the new position is the first byte of the following chunk. -/
theorem getNextByte_returns_byte_and_steps (inStream : List ByteChunk) (mem : Memory)
    (pos : Position) (hne : NonEmptyChunks inStream) (hv : Valid inStream pos)
    (hi : streamIndex inStream pos + 1 < (streamBytes mem inStream).length) :
    ∃ b pos1, getNextByte inStream mem pos = (Outcome.value b, pos1) ∧
      (streamBytes mem inStream)[streamIndex inStream pos]? = some b ∧
      Valid inStream pos1 ∧ streamIndex inStream pos1 = streamIndex inStream pos + 1 ∧
      (pos.current + 1 = pos.end_ → ∃ c, inStream[pos.seqIter + 1]? = some c ∧
        pos1 = ⟨pos.seqIter + 1, c.start, c.end_⟩) := by
  rw [streamBytes_length] at hi
  obtain ⟨pos1, hcall, hv1, hi1, hnext⟩ := getNextByte_inner inStream mem pos hne hv hi
  obtain ⟨c, -, -, -, -, -, -, -, -, hbyte⟩ := valid_unfold inStream mem pos hv
  exact ⟨mem pos.current, pos1, hcall, hbyte, hv1, hi1, hnext⟩

/-- Instance of C1 on the sample stream, at the last byte of the first chunk. -/
theorem getNextByte_returns_byte_and_steps_witness :
    Valid sampleStream ⟨0, 101, 102⟩ ∧
    ∃ b pos1, getNextByte sampleStream sampleMemory ⟨0, 101, 102⟩ = (Outcome.value b, pos1) ∧
      (streamBytes sampleMemory sampleStream)[streamIndex sampleStream ⟨0, 101, 102⟩]? = some b ∧
      Valid sampleStream pos1 ∧
      streamIndex sampleStream pos1 = streamIndex sampleStream ⟨0, 101, 102⟩ + 1 ∧
      ((101 : Int) + 1 = 102 → ∃ c, sampleStream[0 + 1]? = some c ∧
        pos1 = ⟨0 + 1, c.start, c.end_⟩) :=
  ⟨by decide, getNextByte_returns_byte_and_steps sampleStream sampleMemory ⟨0, 101, 102⟩
    (by decide) (by decide) (by decide)⟩

/-- The position of the first byte of a stream with at least one byte is valid and has
stream index 0. -/
theorem firstPosition_valid (inStream : List ByteChunk) (hne : NonEmptyChunks inStream)
    (hN : 1 ≤ streamLen inStream) :
    Valid inStream (firstPosition inStream) ∧ streamIndex inStream (firstPosition inStream) = 0 := by
  cases inStream with
  | nil => simp [streamLen] at hN
  | cons c rest =>
    have h := valid_chunk_start (c :: rest) hne 0 (by simp)
    simpa [firstPosition, prefixLen] using h

/-- Successive calls of `getNextByte` from a valid position of stream index `i` with
`i + n + 1 = N`: the first `n` calls return the bytes `i .. i + n - 1` and call `n + 1`
throws. -/
theorem nextBytes_from (inStream : List ByteChunk) (mem : Memory)
    (hne : NonEmptyChunks inStream) :
    ∀ (n : Nat) (pos : Position), Valid inStream pos →
      streamIndex inStream pos + n + 1 = streamLen inStream →
      (nextBytes inStream mem (n + 1) pos).1 =
        (((streamBytes mem inStream).drop (streamIndex inStream pos)).take n).map Outcome.value
          ++ [Outcome.raise endOfStream] := by
  intro n
  induction n with
  | zero =>
    intro pos hv hi
    simp [nextBytes, getNextByte_last inStream mem pos hne hv (by omega)]
  | succ n ih =>
    intro pos hv hi
    obtain ⟨pos1, hcall, hv1, hi1, -⟩ := getNextByte_inner inStream mem pos hne hv (by omega)
    obtain ⟨c, -, -, -, -, -, -, -, -, hbyte⟩ := valid_unfold inStream mem pos hv
    obtain ⟨hlt, hget⟩ := List.getElem?_eq_some.mp hbyte
    have hrec := ih pos1 hv1 (by omega)
    rw [nextBytes, hcall]
    simp only
    rw [hrec, hi1, List.drop_eq_getElem_cons hlt, hget]
    simp

/-- C2, as stated, fails on a stream of one byte: the first call of `getNextByte`, made on
the only byte, throws instead of returning it. -/
theorem getNextByte_first_call_one_byte_stream :
    NonEmptyChunks oneByteStream ∧
    streamBytes sampleMemory oneByteStream = [100] ∧
    firstPosition oneByteStream = ⟨0, 100, 101⟩ ∧
    getNextByte oneByteStream sampleMemory (firstPosition oneByteStream) =
      (Outcome.raise endOfStream, ⟨1, 101, 101⟩) ∧
    (nextBytes oneByteStream sampleMemory 1 (firstPosition oneByteStream)).1 ≠
      (streamBytes sampleMemory oneByteStream).map Outcome.value := by
  decide

/-- C2 (amended): in a stream of `N ≥ 1` bytes held in non-empty chunks, `N` successive
calls of `getNextByte` from the position of the first byte give: the first `N - 1` calls
return the first `N - 1` bytes of the stream in order, and call `N`, made on the last
byte, throws "Unexpected end of stream". -/
theorem nextBytes_returns_all_but_last (inStream : List ByteChunk) (mem : Memory)
    (hne : NonEmptyChunks inStream) (hN : 1 ≤ (streamBytes mem inStream).length) :
    (nextBytes inStream mem (streamBytes mem inStream).length (firstPosition inStream)).1 =
      ((streamBytes mem inStream).take ((streamBytes mem inStream).length - 1)).map Outcome.value
        ++ [Outcome.raise endOfStream] := by
  rw [streamBytes_length] at hN ⊢
  obtain ⟨hv, hi⟩ := firstPosition_valid inStream hne hN
  have h := nextBytes_from inStream mem hne (streamLen inStream - 1) (firstPosition inStream) hv
    (by omega)
  rw [hi, List.drop_zero] at h
  have hsub : streamLen inStream - 1 + 1 = streamLen inStream := by omega
  rw [hsub] at h
  exact h

/-- Instance of the amended C2 on the sample stream of five bytes. -/
theorem nextBytes_returns_all_but_last_witness :
    1 ≤ (streamBytes sampleMemory sampleStream).length ∧
    (nextBytes sampleStream sampleMemory (streamBytes sampleMemory sampleStream).length
        (firstPosition sampleStream)).1 =
      ((streamBytes sampleMemory sampleStream).take
        ((streamBytes sampleMemory sampleStream).length - 1)).map Outcome.value
        ++ [Outcome.raise endOfStream] :=
  ⟨by decide, nextBytes_returns_all_but_last sampleStream sampleMemory (by decide) (by decide)⟩

/-- C3: from a valid position of stream index `i`, in a stream of `N` bytes held in non-empty
chunks, `advancePosition` with an `int4` skip `≥ 0` such that `i + skip < N` raises no error
and leaves a valid position of stream index exactly `i + skip`; and a skip of 0 leaves the
position unchanged. -/
theorem advancePosition_reaches_index (inStream : List ByteChunk) (pos : Position)
    (hne : NonEmptyChunks inStream) (hv : Valid inStream pos) :
    (∀ skip : Int, 0 ≤ skip → skip < 2 ^ 31 →
      streamIndex inStream pos + skip.toNat < streamLen inStream →
      ∃ pos1, advancePosition inStream pos skip = (Outcome.value (), pos1) ∧
        Valid inStream pos1 ∧
        streamIndex inStream pos1 = streamIndex inStream pos + skip.toNat) ∧
    advancePosition inStream pos 0 = (Outcome.value (), pos) := by
  constructor
  · intro skip h0 h1 hin
    exact (advancePosition_loop inStream hne _ pos skip rfl hv h0 h1).1 hin
  · obtain ⟨c, -, -, -, hend, -, hhi, -, -, -⟩ := valid_unfold inStream (fun _ => 0) pos hv
    rw [advancePosition]
    have hcond : ¬ (pos.end_ - pos.current ≤ 0) := by omega
    simp [hcond]

/-- Instance of C3 on the sample stream: from the first byte, skips of 0 to 4 (crossing the
chunk boundary) are covered; here the skip is 3. -/
theorem advancePosition_reaches_index_witness :
    Valid sampleStream ⟨0, 100, 102⟩ ∧
    (∃ pos1, advancePosition sampleStream ⟨0, 100, 102⟩ 3 = (Outcome.value (), pos1) ∧
      Valid sampleStream pos1 ∧
      streamIndex sampleStream pos1 = streamIndex sampleStream ⟨0, 100, 102⟩ + (3 : Int).toNat) ∧
    advancePosition sampleStream ⟨0, 100, 102⟩ 0 = (Outcome.value (), ⟨0, 100, 102⟩) :=
  ⟨by decide,
    (advancePosition_reaches_index sampleStream ⟨0, 100, 102⟩ (by decide) (by decide)).1 3
      (by decide) (by decide) (by decide),
    (advancePosition_reaches_index sampleStream ⟨0, 100, 102⟩ (by decide) (by decide)).2⟩

/-- C4: from a valid position of stream index `i`, in a stream of `N` bytes held in non-empty
chunks, `advancePosition` with an `int4` skip `≥ 0` throws "Unexpected end of stream" exactly
when `i + skip ≥ N`, and returns normally exactly when `i + skip < N`. -/
theorem advancePosition_raises_iff_past_end (inStream : List ByteChunk) (pos : Position)
    (skip : Int) (hne : NonEmptyChunks inStream) (hv : Valid inStream pos)
    (h0 : 0 ≤ skip) (h1 : skip < 2 ^ 31) :
    ((advancePosition inStream pos skip).1 = Outcome.raise endOfStream ↔
      streamLen inStream ≤ streamIndex inStream pos + skip.toNat) ∧
    ((advancePosition inStream pos skip).1 = Outcome.value () ↔
      streamIndex inStream pos + skip.toNat < streamLen inStream) := by
  obtain ⟨hin, hout⟩ := advancePosition_loop inStream hne _ pos skip rfl hv h0 h1
  by_cases h : streamIndex inStream pos + skip.toNat < streamLen inStream
  · obtain ⟨pos1, hcall, -⟩ := hin h
    rw [hcall]
    constructor
    · constructor
      · intro habs
        cases habs
      · intro hle
        omega
    · simp [h]
  · obtain ⟨pos1, hcall⟩ := hout (by omega)
    rw [hcall]
    constructor
    · simp only [true_iff]
      omega
    · constructor
      · intro habs
        cases habs
      · intro hlt
        exact absurd hlt h

/-- Instance of C4 on the sample stream: from stream index 1, a skip of 4 targets index 5. -/
theorem advancePosition_raises_iff_past_end_witness :
    Valid sampleStream ⟨0, 101, 102⟩ ∧
    (((advancePosition sampleStream ⟨0, 101, 102⟩ 4).1 = Outcome.raise endOfStream ↔
      streamLen sampleStream ≤ streamIndex sampleStream ⟨0, 101, 102⟩ + (4 : Int).toNat) ∧
    ((advancePosition sampleStream ⟨0, 101, 102⟩ 4).1 = Outcome.value () ↔
      streamIndex sampleStream ⟨0, 101, 102⟩ + (4 : Int).toNat < streamLen sampleStream)) :=
  ⟨by decide, advancePosition_raises_iff_past_end sampleStream ⟨0, 101, 102⟩ 4
    (by decide) (by decide) (by decide) (by decide)⟩

/-- C5: from a valid position of stream index `i`, in a stream of `N` bytes held in non-empty
chunks, `getBytePlus1` returns byte `i + 1` of the concatenated stream when `i + 1 < N`
(the first byte of the next chunk when byte `i` ends its chunk), and it throws
"Unexpected end of stream" exactly when the position is on the last byte (`i + 1 = N`). -/
theorem getBytePlus1_returns_next_or_raises (inStream : List ByteChunk) (mem : Memory)
    (pos : Position) (hne : NonEmptyChunks inStream) (hv : Valid inStream pos) :
    (streamIndex inStream pos + 1 < (streamBytes mem inStream).length →
      ∃ b, (getBytePlus1 inStream mem pos).1 = Outcome.value b ∧
        (streamBytes mem inStream)[streamIndex inStream pos + 1]? = some b ∧
        (pos.current + 1 = pos.end_ →
          ∃ c, inStream[pos.seqIter + 1]? = some c ∧ b = mem c.start)) ∧
    ((getBytePlus1 inStream mem pos).1 = Outcome.raise endOfStream ↔
      streamIndex inStream pos + 1 = (streamBytes mem inStream).length) := by
  rw [streamBytes_length]
  obtain ⟨c, hlt, hget, hc, hend, hlo, hhi, hidx, hpre, -⟩ := valid_unfold inStream mem pos hv
  have hle := prefixLen_le inStream (pos.seqIter + 1)
  have hclen : (chunkLen c : Int) = c.end_ - c.start := by
    unfold chunkLen
    omega
  unfold getBytePlus1
  by_cases hcur : pos.current + 1 = pos.end_
  · by_cases heq : pos.seqIter + 1 = inStream.length
    · have hN := prefixLen_length inStream
      rw [← heq] at hN
      simp only [hcur, heq, if_true]
      constructor
      · intro hin
        omega
      · simp only [true_iff]
        omega
    · have hlt1 : pos.seqIter + 1 < inStream.length := by omega
      have hc1 : inStream[pos.seqIter + 1]? = some inStream[pos.seqIter + 1] :=
        List.getElem?_eq_getElem hlt1
      have hpos := hne _ (List.getElem_mem hlt1)
      have hpre1 := prefixLen_succ inStream (pos.seqIter + 1) _ hc1
      have hle1 := prefixLen_le inStream (pos.seqIter + 1 + 1)
      have hlen1 : 0 < chunkLen inStream[pos.seqIter + 1] := by
        unfold chunkLen
        omega
      have hbyte := streamBytes_getElem mem inStream (pos.seqIter + 1) _ hc1 0 hlen1
      have hidx1 : prefixLen inStream (pos.seqIter + 1) + 0 = streamIndex inStream pos + 1 := by
        omega
      rw [hidx1] at hbyte
      simp only [hcur, heq, hlt1, if_true, if_false, dite_true]
      constructor
      · intro _
        refine ⟨_, rfl, ?_, ?_⟩
        · simpa using hbyte
        · intro _
          exact ⟨_, hc1, rfl⟩
      · constructor
        · intro habs
          cases habs
        · intro hlast
          omega
  · have ho : (pos.current - c.start).toNat + 1 < chunkLen c := by omega
    have hbyte := streamBytes_getElem mem inStream pos.seqIter c hc _ ho
    have hidx1 : prefixLen inStream pos.seqIter + ((pos.current - c.start).toNat + 1)
        = streamIndex inStream pos + 1 := by omega
    have haddr : c.start + (((pos.current - c.start).toNat + 1 : Nat) : Int)
        = pos.current + 1 := by omega
    rw [hidx1, haddr] at hbyte
    simp only [hcur, if_false]
    constructor
    · intro _
      exact ⟨_, rfl, hbyte, fun h => h.elim⟩
    · constructor
      · intro habs
        cases habs
      · intro hlast
        omega

/-- Instance of C5 on the sample stream, at the last byte of the first chunk. -/
theorem getBytePlus1_returns_next_or_raises_witness :
    Valid sampleStream ⟨0, 101, 102⟩ ∧
    ((streamIndex sampleStream ⟨0, 101, 102⟩ + 1 < (streamBytes sampleMemory sampleStream).length →
      ∃ b, (getBytePlus1 sampleStream sampleMemory ⟨0, 101, 102⟩).1 = Outcome.value b ∧
        (streamBytes sampleMemory sampleStream)[streamIndex sampleStream ⟨0, 101, 102⟩ + 1]? =
          some b ∧
        ((101 : Int) + 1 = 102 →
          ∃ c, sampleStream[0 + 1]? = some c ∧ b = sampleMemory c.start)) ∧
    ((getBytePlus1 sampleStream sampleMemory ⟨0, 101, 102⟩).1 = Outcome.raise endOfStream ↔
      streamIndex sampleStream ⟨0, 101, 102⟩ + 1 = (streamBytes sampleMemory sampleStream).length)) :=
  ⟨by decide, getBytePlus1_returns_next_or_raises sampleStream sampleMemory ⟨0, 101, 102⟩
    (by decide) (by decide)⟩

/-- C6: `getBytePlus1` and `getByte` are pure look-aheads: for every position, whether
`getBytePlus1` returns a byte or throws, the fields `seqIter`, `current` and `end_` of the
position after the call equal their values before it, and likewise after `getByte`. -/
theorem getBytePlus1_getByte_leave_position (inStream : List ByteChunk) (mem : Memory)
    (pos : Position) :
    (getBytePlus1 inStream mem pos).2.seqIter = pos.seqIter ∧
    (getBytePlus1 inStream mem pos).2.current = pos.current ∧
    (getBytePlus1 inStream mem pos).2.end_ = pos.end_ ∧
    (getByte mem pos).2.seqIter = pos.seqIter ∧
    (getByte mem pos).2.current = pos.current ∧
    (getByte mem pos).2.end_ = pos.end_ := by
  have h : (getBytePlus1 inStream mem pos).2 = pos := by
    unfold getBytePlus1
    simp only
    split_ifs <;> rfl
  rw [h]
  exact ⟨rfl, rfl, rfl, rfl, rfl, rfl⟩

end PackedDecode

namespace PackedEncode

open PackedFormat

/-! ## Claims on the packed encoder -/

/-- C7, as stated, fails: the header of attribute id 2 is `ATTRIBUTE | 2 = 0xc2`, not
`0xd2` (which is `ATTRIBUTE | 18`), so the encoding is not `0x41, 0xd2, 0x11, 0x81`. -/
theorem encode_bool_scenario_not_d2 :
    closeElement (writeBool (openElement [] ⟨"e", 1⟩) ⟨"a", 2⟩ true) ⟨"e", 1⟩
      ≠ [0x41, 0xd2, 0x11, 0x81] ∧
    ATTRIBUTE ||| 2 ≠ 0xd2 ∧ ATTRIBUTE ||| 18 = 0xd2 := by
  decide

/-- C7 (amended): encoding element id 1 with boolean attribute id 2 = true and closing the
element yields exactly the bytes `0x41, 0xc2, 0x11, 0x81`: each header is the record kind
(`ELEMENT_START`, `ATTRIBUTE`, `ELEMENT_END`) OR'd with the id in its one-byte form, and the
boolean type byte is `(TYPECODE_BOOLEAN << TYPECODE_SHIFT) | 1`. -/
theorem encode_bool_scenario_bytes :
    closeElement (writeBool (openElement [] ⟨"e", 1⟩) ⟨"a", 2⟩ true) ⟨"e", 1⟩
      = [0x41, 0xc2, 0x11, 0x81] ∧
    ELEMENT_START ||| 1 = 0x41 ∧ ATTRIBUTE ||| 2 = 0xc2 ∧
    (TYPECODE_BOOLEAN <<< TYPECODE_SHIFT) ||| 1 = 0x11 ∧ ELEMENT_END ||| 1 = 0x81 := by
  decide

end PackedEncode

namespace PackedFormat

/-! ## Claims on the bit layout -/

/-- C8: the masks `HEADER_MASK`, `HEADEREXTEND_MASK` and `ELEMENTID_MASK` are pairwise
disjoint and cover the 8 bits; the record kinds are pairwise distinct, lie inside
`HEADER_MASK` and have top two bits 01, 10 and 11; and a header byte `k | x | id5` built from
a kind, an extend flag and a 5-bit id gives back each of them under its mask. -/
theorem header_byte_fields :
    (HEADER_MASK &&& HEADEREXTEND_MASK = 0 ∧ HEADER_MASK &&& ELEMENTID_MASK = 0 ∧
      HEADEREXTEND_MASK &&& ELEMENTID_MASK = 0 ∧
      HEADER_MASK ||| HEADEREXTEND_MASK ||| ELEMENTID_MASK = 0xff) ∧
    (ELEMENT_START ≠ ELEMENT_END ∧ ELEMENT_START ≠ ATTRIBUTE ∧ ELEMENT_END ≠ ATTRIBUTE ∧
      ELEMENT_START &&& HEADER_MASK = ELEMENT_START ∧
      ELEMENT_END &&& HEADER_MASK = ELEMENT_END ∧
      ATTRIBUTE &&& HEADER_MASK = ATTRIBUTE ∧
      ELEMENT_START >>> 6 = 0b01 ∧ ELEMENT_END >>> 6 = 0b10 ∧ ATTRIBUTE >>> 6 = 0b11) ∧
    (∀ k ∈ [ELEMENT_START, ELEMENT_END, ATTRIBUTE], ∀ x ∈ [0, HEADEREXTEND_MASK],
      ∀ id5 : Nat, id5 ≤ 31 →
        (k ||| x ||| id5) &&& HEADER_MASK = k ∧
        (k ||| x ||| id5) &&& HEADEREXTEND_MASK = x ∧
        (k ||| x ||| id5) &&& ELEMENTID_MASK = id5) := by
  refine ⟨by decide, by decide, ?_⟩
  intro k hk x hx id5 hid
  simp only [List.mem_cons, List.mem_singleton, List.not_mem_nil, or_false] at hk hx
  rcases hk with rfl | rfl | rfl <;> rcases hx with rfl | rfl <;> interval_cases id5 <;> decide

/-- Instance of C8: the header byte of an attribute with the extend flag and 5-bit id 18. -/
theorem header_byte_fields_witness :
    (ATTRIBUTE ||| HEADEREXTEND_MASK ||| 18) &&& HEADER_MASK = ATTRIBUTE ∧
    (ATTRIBUTE ||| HEADEREXTEND_MASK ||| 18) &&& HEADEREXTEND_MASK = HEADEREXTEND_MASK ∧
    (ATTRIBUTE ||| HEADEREXTEND_MASK ||| 18) &&& ELEMENTID_MASK = 18 :=
  header_byte_fields.2.2 ATTRIBUTE (by decide) HEADEREXTEND_MASK (by decide) 18 (by decide)

end PackedFormat

namespace PackedDecode

open PackedFormat

/-- C9: the type byte is `ttttllll`: the seven type codes are 1 to 7; for a type code `t` in
`[1,7]` and a length code `l` in `[0,15]`, the byte `(t << TYPECODE_SHIFT) | l` has
`readLengthCode` equal to `l` and shifts back to `t`; and `readLengthCode b = b mod 16`,
which lies in `[0,15]`, for every byte `b`. -/
theorem readLengthCode_type_byte :
    [TYPECODE_BOOLEAN, TYPECODE_SIGNEDINT_POSITIVE, TYPECODE_SIGNEDINT_NEGATIVE,
      TYPECODE_UNSIGNEDINT, TYPECODE_ADDRESSSPACE, TYPECODE_SPECIALSPACE, TYPECODE_STRING]
      = [1, 2, 3, 4, 5, 6, 7] ∧
    (∀ t l : Nat, 1 ≤ t → t ≤ 7 → l ≤ 15 →
      readLengthCode ((t <<< TYPECODE_SHIFT) ||| l) = l ∧
      ((t <<< TYPECODE_SHIFT) ||| l) >>> TYPECODE_SHIFT = t) ∧
    (∀ b : Nat, readLengthCode b = b % 16 ∧ readLengthCode b ≤ 15) := by
  refine ⟨by decide, ?_, ?_⟩
  · intro t l ht1 ht7 hl
    interval_cases t <;> interval_cases l <;> decide
  · intro b
    have h : readLengthCode b = b % 16 := by
      unfold readLengthCode LENGTHCODE_MASK
      exact Nat.and_pow_two_sub_one_eq_mod b 4
    rw [h]
    exact ⟨rfl, by omega⟩

/-- Instance of C9: the type byte of an unsigned integer of two follow-on bytes, `0x42`. -/
theorem readLengthCode_type_byte_witness :
    readLengthCode ((TYPECODE_UNSIGNEDINT <<< TYPECODE_SHIFT) ||| 2) = 2 ∧
    ((TYPECODE_UNSIGNEDINT <<< TYPECODE_SHIFT) ||| 2) >>> TYPECODE_SHIFT = TYPECODE_UNSIGNEDINT :=
  readLengthCode_type_byte.2.1 TYPECODE_UNSIGNEDINT 2 (by decide) (by decide) (by decide)

end PackedDecode

namespace PackedFormat

/-- C10: every structural byte of the packed format is non-zero: a header byte `k | x | id`
for a record kind, an extend flag and a 5-bit id; a type byte `(t << TYPECODE_SHIFT) | l`
for `t` in `[1,7]` and `l` in `[0,15]`; and a follow-on byte
`RAWDATA_MARKER | (v & RAWDATA_MASK)`, which is at least `0x80`; `RAWDATA_MARKER` and
`RAWDATA_MASK` are disjoint and cover the 8 bits. -/
theorem structural_bytes_nonzero :
    (∀ k ∈ [ELEMENT_START, ELEMENT_END, ATTRIBUTE], ∀ x ∈ [0, HEADEREXTEND_MASK],
      ∀ id : Nat, id ≤ 31 → k ||| x ||| id ≠ 0) ∧
    (∀ t l : Nat, 1 ≤ t → t ≤ 7 → l ≤ 15 → (t <<< TYPECODE_SHIFT) ||| l ≠ 0) ∧
    (∀ v : Nat, RAWDATA_MARKER ||| (v &&& RAWDATA_MASK) ≠ 0 ∧
      0x80 ≤ RAWDATA_MARKER ||| (v &&& RAWDATA_MASK) ∧
      RAWDATA_MARKER ||| (v &&& RAWDATA_MASK) < 256) ∧
    (RAWDATA_MARKER &&& RAWDATA_MASK = 0 ∧ RAWDATA_MARKER ||| RAWDATA_MASK = 0xff) := by
  refine ⟨?_, ?_, ?_, by decide⟩
  · intro k hk x hx id hid
    simp only [List.mem_cons, List.mem_singleton, List.not_mem_nil, or_false] at hk hx
    rcases hk with rfl | rfl | rfl <;> rcases hx with rfl | rfl <;> interval_cases id <;> decide
  · intro t l ht1 ht7 hl
    interval_cases t <;> interval_cases l <;> decide
  · intro v
    have hle : v &&& RAWDATA_MASK ≤ 127 := Nat.and_le_right
    generalize v &&& RAWDATA_MASK = w at hle
    have hall : ∀ u : Nat, u ≤ 127 → 0x80 ≤ RAWDATA_MARKER ||| u ∧ RAWDATA_MARKER ||| u < 256 := by
      intro u hu
      interval_cases u <;> decide
    obtain ⟨h1, h2⟩ := hall w hle
    refine ⟨?_, h1, h2⟩
    omega

/-- Instance of C10: the header byte `0xd2`, the type byte `0x42` and the follow-on byte of
`v = 0` are non-zero. -/
theorem structural_bytes_nonzero_witness :
    ATTRIBUTE ||| 0 ||| 18 ≠ 0 ∧ (TYPECODE_UNSIGNEDINT <<< TYPECODE_SHIFT) ||| 2 ≠ 0 ∧
    RAWDATA_MARKER ||| (0 &&& RAWDATA_MASK) ≠ 0 :=
  ⟨structural_bytes_nonzero.1 ATTRIBUTE (by decide) 0 (by decide) 18 (by decide),
    structural_bytes_nonzero.2.1 TYPECODE_UNSIGNEDINT 2 (by decide) (by decide) (by decide),
    (structural_bytes_nonzero.2.2.1 0).1⟩

end PackedFormat

namespace PackedDecode

/-! ## Repeated reading and the cursor invariant -/

/-- The total length of the first `k` chunks grows with `k`. -/
theorem prefixLen_mono (inStream : List ByteChunk) (k k1 : Nat) (h : k ≤ k1) :
    prefixLen inStream k ≤ prefixLen inStream k1 := by
  have h1 := prefixLen_le (inStream.take k1) k
  unfold prefixLen streamLen at h1
  rw [List.take_take, Nat.min_eq_left h] at h1
  exact h1

/-- A valid position is determined by its stream index. -/
theorem valid_eq_of_index (inStream : List ByteChunk) (p q : Position)
    (hp : Valid inStream p) (hq : Valid inStream q)
    (h : streamIndex inStream p = streamIndex inStream q) : p = q := by
  obtain ⟨c, -, -, hc, hend, hlo, hhi, hidx, hpre, -⟩ := valid_unfold inStream (fun _ => 0) p hp
  obtain ⟨d, -, -, hd, hend1, hlo1, hhi1, hidx1, hpre1, -⟩ :=
    valid_unfold inStream (fun _ => 0) q hq
  have hlenc : (chunkLen c : Int) = c.end_ - c.start := by
    unfold chunkLen
    omega
  have hlend : (chunkLen d : Int) = d.end_ - d.start := by
    unfold chunkLen
    omega
  have hseq : p.seqIter = q.seqIter := by
    rcases Nat.lt_trichotomy p.seqIter q.seqIter with hlt | heq | hgt
    · have := prefixLen_mono inStream (p.seqIter + 1) q.seqIter hlt
      omega
    · exact heq
    · have := prefixLen_mono inStream (q.seqIter + 1) p.seqIter hgt
      omega
  rw [hseq] at hc hidx
  have hcd : c = d := by
    rw [hc] at hd
    exact Option.some.inj hd
  subst hcd
  have hcur : p.current = q.current := by omega
  have hend2 : p.end_ = q.end_ := by omega
  cases p
  cases q
  simp only [Position.mk.injEq]
  exact ⟨hseq, hcur, hend2⟩

/-- Repeated reading from a valid position of stream index `i`: `k` calls of `getNextByte`
all return and lead to the valid position of index `i + k` when `i + k < N`, and one of
them throws otherwise. -/
theorem getNextByteTimes_cases (inStream : List ByteChunk) (mem : Memory)
    (hne : NonEmptyChunks inStream) :
    ∀ (k : Nat) (pos : Position), Valid inStream pos →
      (streamIndex inStream pos + k < streamLen inStream →
        ∃ pos1, getNextByteTimes inStream mem k pos = (Outcome.value (), pos1) ∧
          Valid inStream pos1 ∧ streamIndex inStream pos1 = streamIndex inStream pos + k) ∧
      (streamLen inStream ≤ streamIndex inStream pos + k →
        ∃ pos1, getNextByteTimes inStream mem k pos = (Outcome.raise endOfStream, pos1)) := by
  intro k
  induction k with
  | zero =>
    intro pos hv
    obtain ⟨c, -, -, -, -, hlo, hhi, hidx, hpre, -⟩ := valid_unfold inStream mem pos hv
    have hle := prefixLen_le inStream (pos.seqIter + 1)
    have hlen : (chunkLen c : Int) = c.end_ - c.start := by
      unfold chunkLen
      omega
    constructor
    · intro _
      exact ⟨pos, rfl, hv, rfl⟩
    · intro hout
      omega
  | succ k ih =>
    intro pos hv
    obtain ⟨c, -, -, -, -, hlo, hhi, hidx, hpre, -⟩ := valid_unfold inStream mem pos hv
    have hle := prefixLen_le inStream (pos.seqIter + 1)
    have hlen : (chunkLen c : Int) = c.end_ - c.start := by
      unfold chunkLen
      omega
    have hlt : streamIndex inStream pos + 1 ≤ streamLen inStream := by omega
    by_cases hlast : streamIndex inStream pos + 1 = streamLen inStream
    · have hcall := getNextByte_last inStream mem pos hne hv hlast
      constructor
      · intro hin
        omega
      · intro _
        exact ⟨_, by rw [getNextByteTimes, hcall]⟩
    · obtain ⟨pos1, hcall, hv1, hi1, -⟩ := getNextByte_inner inStream mem pos hne hv (by omega)
      obtain ⟨hin, hout⟩ := ih pos1 hv1
      rw [hi1] at hin hout
      rw [getNextByteTimes, hcall]
      simp only
      constructor
      · intro h
        obtain ⟨pos2, h2, hv2, hi2⟩ := hin (by omega)
        exact ⟨pos2, h2, hv2, by omega⟩
      · intro h
        exact hout (by omega)

end PackedDecode

namespace PackedDecode

/-- C15: `advancePosition` is the `k`-fold `getNextByte`: from a valid position in a stream
of non-empty chunks and for an `int4` count `k ≥ 0`, `advancePosition(pos, k)` throws
"Unexpected end of stream" exactly when one of `k` successive calls of `getNextByte` from
the same position throws it, the two end the same way, and when they do not throw they leave
the position with the same `seqIter`, `current` and `end_`. -/
theorem advancePosition_eq_getNextByteTimes (inStream : List ByteChunk) (mem : Memory)
    (pos : Position) (k : Nat) (hne : NonEmptyChunks inStream) (hv : Valid inStream pos)
    (hk : (k : Int) < 2 ^ 31) :
    ((advancePosition inStream pos (k : Int)).1 = Outcome.raise endOfStream ↔
      (getNextByteTimes inStream mem k pos).1 = Outcome.raise endOfStream) ∧
    (advancePosition inStream pos (k : Int)).1 = (getNextByteTimes inStream mem k pos).1 ∧
    ((advancePosition inStream pos (k : Int)).1 ≠ Outcome.raise endOfStream →
      (advancePosition inStream pos (k : Int)).2.seqIter =
        (getNextByteTimes inStream mem k pos).2.seqIter ∧
      (advancePosition inStream pos (k : Int)).2.current =
        (getNextByteTimes inStream mem k pos).2.current ∧
      (advancePosition inStream pos (k : Int)).2.end_ =
        (getNextByteTimes inStream mem k pos).2.end_) := by
  obtain ⟨ain, aout⟩ :=
    advancePosition_loop inStream hne _ pos (k : Int) rfl hv (by omega) hk
  obtain ⟨gin, gout⟩ := getNextByteTimes_cases inStream mem hne k pos hv
  rw [Int.toNat_ofNat] at ain aout
  by_cases h : streamIndex inStream pos + k < streamLen inStream
  · obtain ⟨p1, ha, hv1, hi1⟩ := ain h
    obtain ⟨p2, hg, hv2, hi2⟩ := gin h
    have heq : p1 = p2 := valid_eq_of_index inStream p1 p2 hv1 hv2 (by omega)
    rw [ha, hg, heq]
    simp
  · obtain ⟨p1, ha⟩ := aout (by omega)
    obtain ⟨p2, hg⟩ := gout (by omega)
    rw [ha, hg]
    simp

/-- Instance of C15 on the sample stream: three bytes on from the first byte, across the
chunk boundary. -/
theorem advancePosition_eq_getNextByteTimes_witness :
    Valid sampleStream ⟨0, 100, 102⟩ ∧
    ((advancePosition sampleStream ⟨0, 100, 102⟩ ((3 : Nat) : Int)).1 = Outcome.raise endOfStream ↔
      (getNextByteTimes sampleStream sampleMemory 3 ⟨0, 100, 102⟩).1 = Outcome.raise endOfStream) ∧
    (advancePosition sampleStream ⟨0, 100, 102⟩ ((3 : Nat) : Int)).1 =
      (getNextByteTimes sampleStream sampleMemory 3 ⟨0, 100, 102⟩).1 ∧
    ((advancePosition sampleStream ⟨0, 100, 102⟩ ((3 : Nat) : Int)).1 ≠ Outcome.raise endOfStream →
      (advancePosition sampleStream ⟨0, 100, 102⟩ ((3 : Nat) : Int)).2.seqIter =
        (getNextByteTimes sampleStream sampleMemory 3 ⟨0, 100, 102⟩).2.seqIter ∧
      (advancePosition sampleStream ⟨0, 100, 102⟩ ((3 : Nat) : Int)).2.current =
        (getNextByteTimes sampleStream sampleMemory 3 ⟨0, 100, 102⟩).2.current ∧
      (advancePosition sampleStream ⟨0, 100, 102⟩ ((3 : Nat) : Int)).2.end_ =
        (getNextByteTimes sampleStream sampleMemory 3 ⟨0, 100, 102⟩).2.end_) :=
  ⟨by decide, advancePosition_eq_getNextByteTimes sampleStream sampleMemory ⟨0, 100, 102⟩ 3
    (by decide) (by decide) (by decide)⟩

/-- C16: validity of the position is kept by the cursor operations: from a valid position in
a stream of non-empty chunks, a call of `getNextByte` that returns and a call of
`advancePosition` with an `int4` skip `≥ 0` that returns both leave a valid position; and at
a valid position `getByte` reads an address inside a chunk of the stream, the byte of the
stream at the position's index. -/
theorem cursor_operations_keep_valid (inStream : List ByteChunk) (mem : Memory)
    (pos : Position) (hne : NonEmptyChunks inStream) (hv : Valid inStream pos) :
    (∀ (b : Nat) (pos1 : Position),
      getNextByte inStream mem pos = (Outcome.value b, pos1) → Valid inStream pos1) ∧
    (∀ (skip : Int) (pos1 : Position), 0 ≤ skip → skip < 2 ^ 31 →
      advancePosition inStream pos skip = (Outcome.value (), pos1) → Valid inStream pos1) ∧
    (∃ c ∈ inStream, c.start ≤ pos.current ∧ pos.current < c.end_) ∧
    (streamBytes mem inStream)[streamIndex inStream pos]? = some (getByte mem pos).1 := by
  obtain ⟨c, hlt, hget, hc, hend, hlo, hhi, hidx, hpre, hbyte⟩ :=
    valid_unfold inStream mem pos hv
  have hle := prefixLen_le inStream (pos.seqIter + 1)
  have hlen : (chunkLen c : Int) = c.end_ - c.start := by
    unfold chunkLen
    omega
  refine ⟨?_, ?_, ⟨c, ?_, hlo, hhi⟩, hbyte⟩
  · intro b pos1 hcall
    by_cases hlast : streamIndex inStream pos + 1 = streamLen inStream
    · rw [getNextByte_last inStream mem pos hne hv hlast] at hcall
      simp at hcall
    · obtain ⟨pos2, hcall2, hv2, -⟩ := getNextByte_inner inStream mem pos hne hv (by omega)
      rw [hcall2] at hcall
      simp only [Prod.mk.injEq] at hcall
      rw [← hcall.2]
      exact hv2
  · intro skip pos1 h0 h1 hcall
    obtain ⟨hin, hout⟩ := advancePosition_loop inStream hne _ pos skip rfl hv h0 h1
    by_cases h : streamIndex inStream pos + skip.toNat < streamLen inStream
    · obtain ⟨pos2, hcall2, hv2, -⟩ := hin h
      rw [hcall2] at hcall
      simp only [Prod.mk.injEq] at hcall
      rw [← hcall.2]
      exact hv2
    · obtain ⟨pos2, hcall2⟩ := hout (by omega)
      rw [hcall2] at hcall
      simp at hcall
  · rw [← hget]
    exact List.getElem_mem hlt

/-- Instance of C16 on the sample stream, at the last byte of the first chunk. -/
theorem cursor_operations_keep_valid_witness :
    Valid sampleStream ⟨0, 101, 102⟩ ∧
    (∀ (b : Nat) (pos1 : Position),
      getNextByte sampleStream sampleMemory ⟨0, 101, 102⟩ = (Outcome.value b, pos1) →
        Valid sampleStream pos1) ∧
    (∀ (skip : Int) (pos1 : Position), 0 ≤ skip → skip < 2 ^ 31 →
      advancePosition sampleStream ⟨0, 101, 102⟩ skip = (Outcome.value (), pos1) →
        Valid sampleStream pos1) ∧
    (∃ c ∈ sampleStream, c.start ≤ (101 : Int) ∧ (101 : Int) < c.end_) ∧
    (streamBytes sampleMemory sampleStream)[streamIndex sampleStream ⟨0, 101, 102⟩]? =
      some (getByte sampleMemory ⟨0, 101, 102⟩).1 :=
  ⟨by decide, cursor_operations_keep_valid sampleStream sampleMemory ⟨0, 101, 102⟩
    (by decide) (by decide)⟩

/-- C17: `advancePosition` does not guard a negative skip: from a valid position and for a
skip `< 0` the loop body is not entered, no error is raised, and `current` is moved back by
`|skip|` with `seqIter` and `end_` unchanged; when `|skip|` exceeds the offset of `current`
in its chunk the position returned is invalid, `current` lying before the start of the
chunk, and this happens for a valid position of the sample stream with skip `-1`. -/
theorem advancePosition_negative_skip :
    (∀ (inStream : List ByteChunk) (pos : Position) (skip : Int),
      Valid inStream pos → skip < 0 →
        advancePosition inStream pos skip =
          (Outcome.value (), ⟨pos.seqIter, pos.current + skip, pos.end_⟩) ∧
        (∀ c, inStream[pos.seqIter]? = some c → pos.current + skip < c.start →
          ¬ Valid inStream (advancePosition inStream pos skip).2)) ∧
    (∃ (pos : Position) (skip : Int) (c : ByteChunk),
      NonEmptyChunks sampleStream ∧ Valid sampleStream pos ∧ skip < 0 ∧
        sampleStream[pos.seqIter]? = some c ∧
        (advancePosition sampleStream pos skip).1 = Outcome.value () ∧
        (advancePosition sampleStream pos skip).2.current < c.start ∧
        ¬ Valid sampleStream (advancePosition sampleStream pos skip).2) := by
  have hgen : ∀ (inStream : List ByteChunk) (pos : Position) (skip : Int),
      Valid inStream pos → skip < 0 →
        advancePosition inStream pos skip =
          (Outcome.value (), ⟨pos.seqIter, pos.current + skip, pos.end_⟩) := by
    intro inStream pos skip hv hs
    obtain ⟨c, -, -, -, hend, -, hhi, -, -, -⟩ := valid_unfold inStream (fun _ => 0) pos hv
    have hcond : ¬ (pos.end_ - pos.current ≤ skip) := by omega
    rw [advancePosition]
    simp [hcond]
  refine ⟨?_, ?_⟩
  · intro inStream pos skip hv hs
    refine ⟨hgen inStream pos skip hv hs, ?_⟩
    intro c hc hbefore hv1
    rw [hgen inStream pos skip hv hs, valid_iff] at hv1
    obtain ⟨d, hd, -, hlo, -⟩ := hv1
    simp only at hd hlo
    rw [hc] at hd
    cases hd
    omega
  · refine ⟨⟨0, 100, 102⟩, -1, ⟨100, 102⟩, by decide, by decide, by decide, by decide, ?_⟩
    rw [hgen sampleStream ⟨0, 100, 102⟩ (-1) (by decide) (by decide)]
    decide

/-- Instance of C17 on the sample stream: from the second byte of the second chunk, a skip
of `-2` leaves `current` one byte before the chunk. -/
theorem advancePosition_negative_skip_witness :
    Valid sampleStream ⟨1, 201, 203⟩ ∧
    advancePosition sampleStream ⟨1, 201, 203⟩ (-2) = (Outcome.value (), ⟨1, 201 + -2, 203⟩) ∧
    (∀ c, sampleStream[1]? = some c → (201 : Int) + -2 < c.start →
      ¬ Valid sampleStream (advancePosition sampleStream ⟨1, 201, 203⟩ (-2)).2) :=
  ⟨by decide,
    advancePosition_negative_skip.1 sampleStream ⟨1, 201, 203⟩ (-2) (by decide) (by decide)⟩

end PackedDecode

namespace PackedFormat

/-! ## Width of an encoded integer -/

theorem groupCount_zero : groupCount 0 = 0 := by
  rw [groupCount]
  simp

theorem groupCount_of_ne_zero (v : Nat) (h : v ≠ 0) :
    groupCount v = groupCount (v >>> RAWDATA_BITSPERBYTE) + 1 := by
  rw [groupCount]
  simp [h]

/-- The group count is the least number of 7-bit groups that hold the value: `L` groups are
enough exactly when the value is below `2^(7L)`. -/
theorem groupCount_le_iff (L : Nat) :
    ∀ v : Nat, groupCount v ≤ L ↔ v < 2 ^ (RAWDATA_BITSPERBYTE * L) := by
  induction L with
  | zero =>
    intro v
    by_cases h : v = 0
    · subst h
      simp [groupCount_zero]
    · rw [groupCount_of_ne_zero v h]
      simp only [Nat.mul_zero, Nat.pow_zero]
      omega
  | succ L ih =>
    intro v
    by_cases h : v = 0
    · subst h
      simp [groupCount_zero]
    · rw [groupCount_of_ne_zero v h]
      have hstep := ih (v >>> RAWDATA_BITSPERBYTE)
      have hpow : 2 ^ (RAWDATA_BITSPERBYTE * (L + 1))
          = 2 ^ (RAWDATA_BITSPERBYTE * L) * 2 ^ RAWDATA_BITSPERBYTE := by
        rw [Nat.mul_add, Nat.pow_add, Nat.mul_one]
      rw [hpow, Nat.add_le_add_iff_right, hstep, Nat.shiftRight_eq_div_pow]
      exact Nat.div_lt_iff_lt_mul (by decide)

end PackedFormat

namespace PackedFormat

/-- C13: the maximum integer width is 10 bytes: `groupCount v` is the minimum number of
groups of `RAWDATA_BITSPERBYTE = 7` bits that hold `v`; for every `v < 2^64` it is at most 10
(10 groups hold 70 bits), for `v = 2^63` it is exactly 10, and 10 fits in the 4-bit length
code selected by `LENGTHCODE_MASK`. -/
theorem max_integer_width :
    (∀ v : Nat, v < 2 ^ (RAWDATA_BITSPERBYTE * groupCount v) ∧
      ∀ L : Nat, v < 2 ^ (RAWDATA_BITSPERBYTE * L) → groupCount v ≤ L) ∧
    (∀ v : Nat, v < 2 ^ 64 → groupCount v ≤ 10) ∧
    RAWDATA_BITSPERBYTE * 10 = 70 ∧
    (∃ v : Nat, v < 2 ^ 64 ∧ groupCount v = 10) ∧
    (10 ≤ LENGTHCODE_MASK ∧ LENGTHCODE_MASK = 2 ^ 4 - 1 ∧ 10 &&& LENGTHCODE_MASK = 10) := by
  have hmax : ∀ v : Nat, v < 2 ^ 64 → groupCount v ≤ 10 := by
    intro v hv
    rw [groupCount_le_iff]
    have : (2 : Nat) ^ 64 ≤ 2 ^ (RAWDATA_BITSPERBYTE * 10) := by decide
    omega
  refine ⟨?_, hmax, by decide, ⟨2 ^ 63, by decide, ?_⟩, by decide⟩
  · intro v
    exact ⟨(groupCount_le_iff _ v).mp (Nat.le_refl _), fun L hL => (groupCount_le_iff L v).mpr hL⟩
  · have h10 := hmax (2 ^ 63) (by decide)
    have h9 : ¬ groupCount (2 ^ 63) ≤ 9 := by
      rw [groupCount_le_iff]
      decide
    omega

/-- Instance of C13: the 64-bit value 300 needs at most 10 groups. -/
theorem max_integer_width_witness : (300 : Nat) < 2 ^ 64 ∧ groupCount 300 ≤ 10 :=
  ⟨by decide, max_integer_width.2.1 300 (by decide)⟩

end PackedFormat

namespace PackedEncode

open PackedFormat PackedDecode

/-! ## Integers written and read back -/

theorem followOnBytes_succ (v L : Nat) :
    followOnBytes v (L + 1) =
      (RAWDATA_MARKER ||| ((v >>> (RAWDATA_BITSPERBYTE * L)) &&& RAWDATA_MASK)) ::
        followOnBytes v L := by
  simp [followOnBytes, List.range_succ]

theorem followOnBytes_length (v L : Nat) : (followOnBytes v L).length = L := by
  simp [followOnBytes]

/-- The data bits of a follow-on byte are the group it was built from. -/
theorem followOn_data_bits (x : Nat) :
    (RAWDATA_MARKER ||| (x &&& RAWDATA_MASK)) &&& RAWDATA_MASK = x % 128 := by
  have hx : x &&& RAWDATA_MASK = x % 128 := Nat.and_pow_two_sub_one_eq_mod x 7
  have hlt : x % 128 < 128 := Nat.mod_lt _ (by decide)
  rw [hx]
  generalize x % 128 = w at hlt
  interval_cases w <;> decide

/-- Reading back `L` follow-on bytes of `v` onto an accumulator, as long as the result fits
in 64 bits. -/
theorem foldl_followOnBytes (v : Nat) :
    ∀ (L acc : Nat), acc * 128 ^ L + v % 128 ^ L < 2 ^ 64 →
      List.foldl
        (fun (res : Nat) (b : Nat) =>
          ((res <<< RAWDATA_BITSPERBYTE) % 2 ^ 64) ||| (b &&& RAWDATA_MASK))
        acc (followOnBytes v L) = acc * 128 ^ L + v % 128 ^ L := by
  intro L
  induction L with
  | zero =>
    intro acc _
    simp [followOnBytes, Nat.mod_one]
  | succ L ih =>
    intro acc hfit
    have hP : 0 < 128 ^ L := Nat.pow_pos (by decide)
    have hmod : v % 128 ^ (L + 1) = v % 128 ^ L + 128 ^ L * ((v / 128 ^ L) % 128) :=
      Nat.mod_pow_succ
    have hpow : 128 ^ (L + 1) = 128 ^ L * 128 := Nat.pow_succ 128 L
    have hglt : (v / 128 ^ L) % 128 < 2 ^ 7 := Nat.mod_lt _ (by decide)
    have hg : (RAWDATA_MARKER ||| ((v >>> (RAWDATA_BITSPERBYTE * L)) &&& RAWDATA_MASK))
        &&& RAWDATA_MASK = (v / 128 ^ L) % 128 := by
      rw [followOn_data_bits, Nat.shiftRight_eq_div_pow]
      have h7 : 2 ^ (RAWDATA_BITSPERBYTE * L) = 128 ^ L := by
        show 2 ^ (7 * L) = 128 ^ L
        rw [Nat.pow_mul]
      rw [h7]
    have hle : acc * 128 ≤ acc * (128 ^ L * 128) :=
      Nat.mul_le_mul_left _ (Nat.le_mul_of_pos_left _ hP)
    have hacc : acc * 128 < 2 ^ 64 := by
      rw [hpow] at hfit
      omega
    have hshift : (acc <<< RAWDATA_BITSPERBYTE) % 2 ^ 64 = 2 ^ 7 * acc := by
      rw [Nat.shiftLeft_eq]
      show (acc * 2 ^ 7) % 2 ^ 64 = 2 ^ 7 * acc
      rw [Nat.mod_eq_of_lt (by omega)]
      omega
    rw [followOnBytes_succ, List.foldl_cons, hg, hshift, ← Nat.mul_add_lt_is_or hglt acc]
    have hring : (2 ^ 7 * acc + (v / 128 ^ L) % 128) * 128 ^ L + v % 128 ^ L
        = acc * 128 ^ (L + 1) + v % 128 ^ (L + 1) := by
      rw [hmod, hpow]
      ring
    rw [ih _ (by rw [hring]; exact hfit), hring]

/-- Reading back the follow-on bytes of a 64-bit value that fits in `L` groups gives the
value. -/
theorem readInteger_followOnBytes (v L : Nat) (h64 : v < 2 ^ 64)
    (hfit : v < 2 ^ (RAWDATA_BITSPERBYTE * L)) : readInteger (followOnBytes v L) = v := by
  have h7 : 2 ^ (RAWDATA_BITSPERBYTE * L) = 128 ^ L := by
    show 2 ^ (7 * L) = 128 ^ L
    rw [Nat.pow_mul]
  rw [h7] at hfit
  have hmod : v % 128 ^ L = v := Nat.mod_eq_of_lt hfit
  unfold readInteger
  rw [foldl_followOnBytes v L 0 (by rw [hmod]; omega), hmod]
  omega

end PackedEncode

namespace PackedEncode

open PackedFormat PackedDecode

theorem groupCount_300 : groupCount 300 = 2 := by
  simp [groupCount, RAWDATA_BITSPERBYTE]

/-- The length code of a type byte built from a type code and a group count of at most 10. -/
theorem readLengthCode_typeByte (t L : Nat) (ht1 : 1 ≤ t) (ht7 : t ≤ 7) (hL : L ≤ 10) :
    readLengthCode ((t <<< TYPECODE_SHIFT) ||| L) = L := by
  interval_cases t <;> interval_cases L <;> decide

/-- Byte `j` of the follow-on bytes carries group `L - 1 - j` of the value, counted from the
least significant group. -/
theorem followOnBytes_getElem (v L j : Nat) (hj : j < L) :
    (followOnBytes v L)[j]? =
      some (RAWDATA_MARKER |||
        ((v >>> (RAWDATA_BITSPERBYTE * (L - 1 - j))) &&& RAWDATA_MASK)) := by
  unfold followOnBytes
  rw [List.getElem?_map, List.getElem?_reverse (by simpa using hj)]
  simp only [List.length_range]
  rw [List.getElem?_range (by omega)]
  rfl

/-- C12: integer payload round trip: a 64-bit value `v` written by `writeInteger` under a
type code `t` is the type byte with the minimum number `L` of 7-bit groups as length code,
then `L` follow-on bytes `RAWDATA_MARKER | group`, most significant group first; reading
these `L` bytes back by shifting left `RAWDATA_BITSPERBYTE` bits per byte and adding
`byte & RAWDATA_MASK` returns `v`; `v = 0` gives `L = 0` and no follow-on byte; and 300
written as an unsigned attribute has type byte `0x42` and payload `0x82, 0xac`. -/
theorem integer_payload_round_trip :
    (∀ v : Nat, v < 2 ^ 64 → ∀ t : Nat, 1 ≤ t → t ≤ 7 →
      writeInteger [] (t <<< TYPECODE_SHIFT) v =
        ((t <<< TYPECODE_SHIFT) ||| groupCount v) :: followOnBytes v (groupCount v) ∧
      (followOnBytes v (groupCount v)).length = groupCount v ∧
      (∀ L : Nat, v < 2 ^ (RAWDATA_BITSPERBYTE * L) → groupCount v ≤ L) ∧
      (∀ j : Nat, j < groupCount v →
        (followOnBytes v (groupCount v))[j]? =
          some (RAWDATA_MARKER |||
            ((v >>> (RAWDATA_BITSPERBYTE * (groupCount v - 1 - j))) &&& RAWDATA_MASK))) ∧
      readLengthCode ((t <<< TYPECODE_SHIFT) ||| groupCount v) = groupCount v ∧
      readInteger (followOnBytes v (groupCount v)) = v) ∧
    (groupCount 0 = 0 ∧ ∀ typeByte : Nat, writeInteger [] typeByte 0 = [typeByte]) ∧
    (writeUnsignedInteger [] ⟨"a", 2⟩ 300 = [0xc2, 0x42, 0x82, 0xac] ∧
      (TYPECODE_UNSIGNEDINT <<< TYPECODE_SHIFT) ||| groupCount 300 = 0x42 ∧
      followOnBytes 300 (groupCount 300) = [0x82, 0xac] ∧
      readInteger [0x82, 0xac] = 300) := by
  refine ⟨?_, ⟨groupCount_zero, ?_⟩, ?_⟩
  · intro v hv t ht1 ht7
    have hmax : groupCount v ≤ 10 := by
      rw [groupCount_le_iff]
      have : (2 : Nat) ^ 64 ≤ 2 ^ (RAWDATA_BITSPERBYTE * 10) := by decide
      omega
    refine ⟨by simp [writeInteger], followOnBytes_length v _,
      fun L hL => (groupCount_le_iff L v).mpr hL,
      fun j hj => followOnBytes_getElem v _ j hj,
      readLengthCode_typeByte t _ ht1 ht7 hmax, ?_⟩
    exact readInteger_followOnBytes v _ hv ((groupCount_le_iff _ v).mp (Nat.le_refl _))
  · intro typeByte
    simp [writeInteger, groupCount_zero, followOnBytes]
  · rw [groupCount_300]
    refine ⟨?_, by decide, by decide, by decide⟩
    simp only [writeUnsignedInteger, writeInteger, groupCount_300]
    decide

/-- Instance of C12: the value 300 under the unsigned type code. -/
theorem integer_payload_round_trip_witness :
    (300 : Nat) < 2 ^ 64 ∧
    readLengthCode ((TYPECODE_UNSIGNEDINT <<< TYPECODE_SHIFT) ||| groupCount 300)
      = groupCount 300 ∧
    readInteger (followOnBytes 300 (groupCount 300)) = 300 :=
  ⟨by decide,
    (integer_payload_round_trip.1 300 (by decide) TYPECODE_UNSIGNEDINT (by decide)
      (by decide)).2.2.2.2.1,
    (integer_payload_round_trip.1 300 (by decide) TYPECODE_UNSIGNEDINT (by decide)
      (by decide)).2.2.2.2.2⟩

end PackedEncode

namespace PackedEncode

open PackedFormat PackedDecode

/-! ## Ids carried by headers -/

/-- The fields of a two-byte header: the extend flag is set, and the id bits of the header
byte are the low 5 bits of the id. -/
theorem extended_header_fields (k id : Nat)
    (hk : k ∈ [ELEMENT_START, ELEMENT_END, ATTRIBUTE]) :
    (k ||| HEADEREXTEND_MASK ||| (id &&& ELEMENTID_MASK)) &&& HEADEREXTEND_MASK
        = HEADEREXTEND_MASK ∧
    (k ||| HEADEREXTEND_MASK ||| (id &&& ELEMENTID_MASK)) &&& ELEMENTID_MASK = id % 32 := by
  have hx : id &&& ELEMENTID_MASK = id % 32 := Nat.and_pow_two_sub_one_eq_mod id 5
  have hlt : id % 32 < 32 := Nat.mod_lt _ (by decide)
  rw [hx]
  generalize id % 32 = w at hlt
  simp only [List.mem_cons, List.mem_singleton, List.not_mem_nil, or_false] at hk
  rcases hk with rfl | rfl | rfl <;> interval_cases w <;> decide

/-- A follow-on byte has the form `1iiiiiii`. -/
theorem followOn_marker_bit (x : Nat) :
    (RAWDATA_MARKER ||| (x &&& RAWDATA_MASK)) &&& RAWDATA_MARKER = RAWDATA_MARKER := by
  have hx : x &&& RAWDATA_MASK = x % 128 := Nat.and_pow_two_sub_one_eq_mod x 7
  have hlt : x % 128 < 128 := Nat.mod_lt _ (by decide)
  rw [hx]
  generalize x % 128 = w at hlt
  interval_cases w <;> decide

/-- The id read back from the two-byte header of `id` is `id` modulo `2^12`. -/
theorem headerId_extended (k id : Nat) (hk : k ∈ [ELEMENT_START, ELEMENT_END, ATTRIBUTE]) :
    headerId (k ||| HEADEREXTEND_MASK ||| (id &&& ELEMENTID_MASK))
      (RAWDATA_MARKER ||| ((id >>> 5) &&& RAWDATA_MASK)) = id % 4096 := by
  obtain ⟨hext, hlow⟩ := extended_header_fields k id hk
  have hflag : ¬ ((k ||| HEADEREXTEND_MASK ||| (id &&& ELEMENTID_MASK)) &&& HEADEREXTEND_MASK
      = 0) := by
    rw [hext]
    decide
  unfold headerId
  rw [if_neg hflag, hlow, followOn_data_bits, Nat.shiftRight_eq_div_pow, Nat.shiftLeft_eq]
  have hlt : id % 32 < 2 ^ 5 := Nat.mod_lt _ (by decide)
  have hor := Nat.mul_add_lt_is_or hlt (id / 2 ^ 5 % 128)
  rw [Nat.mul_comm (id / 2 ^ 5 % 128) (2 ^ 5), ← hor]
  omega

/-- Every id read from a header is below `2^12`. -/
theorem headerId_lt (header followOn : Nat) : headerId header followOn < 4096 := by
  have hlow : header &&& ELEMENTID_MASK < 2 ^ 12 :=
    Nat.lt_of_le_of_lt Nat.and_le_right (by decide)
  unfold headerId
  split_ifs
  · exact hlow
  · have hhi : followOn &&& RAWDATA_MASK ≤ 127 := Nat.and_le_right
    have hshift : (followOn &&& RAWDATA_MASK) <<< 5 < 2 ^ 12 := by
      rw [Nat.shiftLeft_eq]
      omega
    exact Nat.or_lt_two_pow hshift hlow

end PackedEncode

namespace PackedEncode

open PackedFormat PackedDecode

/-- C14: the total id range is 12 bits: the header byte carries 5 id bits and the follow-on
byte `1iiiiiii` 7 more; an id in `[0,31]` is written as one header byte with the extend flag
clear, an id in `[32,4095]` as two bytes with the extend flag set; for every id in
`[0,4095]` the id read back from its encoding is the id; every id read from a header is
below 4096, and an id `≥ 4096` is not read back from its encoding. -/
theorem header_id_range :
    (ELEMENTID_MASK = 2 ^ 5 - 1 ∧ RAWDATA_MASK = 2 ^ 7 - 1 ∧
      RAWDATA_MARKER &&& RAWDATA_MASK = 0 ∧ 2 ^ (5 + 7) = 4096) ∧
    (∀ k ∈ [ELEMENT_START, ELEMENT_END, ATTRIBUTE], ∀ id : Nat, id ≤ 31 →
      ∃ b, writeHeader [] k id = [b] ∧ b &&& HEADEREXTEND_MASK = 0 ∧
        ∀ followOn : Nat, headerId b followOn = id) ∧
    (∀ k ∈ [ELEMENT_START, ELEMENT_END, ATTRIBUTE], ∀ id : Nat, 32 ≤ id → id ≤ 4095 →
      ∃ b1 b2, writeHeader [] k id = [b1, b2] ∧
        b1 &&& HEADEREXTEND_MASK = HEADEREXTEND_MASK ∧
        b2 &&& RAWDATA_MARKER = RAWDATA_MARKER ∧ headerId b1 b2 = id) ∧
    (∀ header followOn : Nat, headerId header followOn < 4096) ∧
    (∀ k ∈ [ELEMENT_START, ELEMENT_END, ATTRIBUTE], ∀ id : Nat, 4096 ≤ id →
      ∃ b1 b2, writeHeader [] k id = [b1, b2] ∧ headerId b1 b2 ≠ id) := by
  refine ⟨by decide, ?_, ?_, headerId_lt, ?_⟩
  · intro k hk id hid
    have hlt : id < 32 := by omega
    refine ⟨k ||| id, by simp [writeHeader, hlt], ?_⟩
    simp only [List.mem_cons, List.mem_singleton, List.not_mem_nil, or_false] at hk
    have hflag : (k ||| id) &&& HEADEREXTEND_MASK = 0 := by
      rcases hk with rfl | rfl | rfl <;> interval_cases id <;> decide
    have hbits : (k ||| id) &&& ELEMENTID_MASK = id := by
      rcases hk with rfl | rfl | rfl <;> interval_cases id <;> decide
    refine ⟨hflag, ?_⟩
    intro followOn
    unfold headerId
    rw [if_pos hflag, hbits]
  · intro k hk id hlo hhi
    have hge : ¬ id < 32 := by omega
    refine ⟨k ||| HEADEREXTEND_MASK ||| (id &&& ELEMENTID_MASK),
      RAWDATA_MARKER ||| ((id >>> 5) &&& RAWDATA_MASK),
      by simp only [writeHeader, hge, if_false, List.nil_append],
      (extended_header_fields k id hk).1, followOn_marker_bit _, ?_⟩
    rw [headerId_extended k id hk]
    omega
  · intro k hk id hbig
    have hge : ¬ id < 32 := by omega
    refine ⟨k ||| HEADEREXTEND_MASK ||| (id &&& ELEMENTID_MASK),
      RAWDATA_MARKER ||| ((id >>> 5) &&& RAWDATA_MASK),
      by simp only [writeHeader, hge, if_false, List.nil_append], ?_⟩
    rw [headerId_extended k id hk]
    omega

/-- Instance of C14: element id 300 is written in two bytes and read back. -/
theorem header_id_range_witness :
    ∃ b1 b2, writeHeader [] ELEMENT_START 300 = [b1, b2] ∧
      b1 &&& HEADEREXTEND_MASK = HEADEREXTEND_MASK ∧
      b2 &&& RAWDATA_MARKER = RAWDATA_MARKER ∧ headerId b1 b2 = 300 :=
  header_id_range.2.2.1 ELEMENT_START (by decide) 300 (by decide) (by decide)

end PackedEncode

namespace PackedEncode

open PackedFormat PackedDecode

/-! ## Bytes written by the encoder -/

theorem or_ne_zero_left (a b : Nat) (h : a ≠ 0) : a ||| b ≠ 0 := by
  intro h0
  apply h
  apply Nat.eq_of_testBit_eq
  intro i
  have hbit := congrArg (fun n => Nat.testBit n i) h0
  simp only [Nat.testBit_or, Nat.zero_testBit, Bool.or_eq_false_iff] at hbit
  simp [hbit.1]

theorem writeHeader_nonzero (outStream : List Nat) (header id : Nat) (hh : header ≠ 0)
    (hout : ∀ b ∈ outStream, b ≠ 0) : ∀ b ∈ writeHeader outStream header id, b ≠ 0 := by
  intro b hb
  unfold writeHeader at hb
  split_ifs at hb
  · simp only [List.mem_append, List.mem_singleton] at hb
    rcases hb with hb | rfl
    · exact hout b hb
    · exact or_ne_zero_left _ _ hh
  · simp only [List.mem_append, List.mem_cons, List.mem_singleton, List.not_mem_nil,
      or_false] at hb
    rcases hb with hb | rfl | rfl
    · exact hout b hb
    · exact or_ne_zero_left _ _ (or_ne_zero_left _ _ hh)
    · exact or_ne_zero_left _ _ (by decide)

theorem followOnBytes_nonzero (v L : Nat) : ∀ b ∈ followOnBytes v L, b ≠ 0 := by
  intro b hb
  unfold followOnBytes at hb
  rw [List.mem_map] at hb
  obtain ⟨k, -, rfl⟩ := hb
  exact or_ne_zero_left _ _ (by decide)

theorem writeInteger_nonzero (outStream : List Nat) (typeByte val : Nat) (ht : typeByte ≠ 0)
    (hout : ∀ b ∈ outStream, b ≠ 0) : ∀ b ∈ writeInteger outStream typeByte val, b ≠ 0 := by
  intro b hb
  unfold writeInteger at hb
  simp only [List.mem_append, List.mem_singleton] at hb
  rcases hb with (hb | rfl) | hb
  · exact hout b hb
  · exact or_ne_zero_left _ _ ht
  · exact followOnBytes_nonzero _ _ b hb

theorem append_nonzero (l1 l2 : List Nat) (h1 : ∀ b ∈ l1, b ≠ 0) (h2 : ∀ b ∈ l2, b ≠ 0) :
    ∀ b ∈ l1 ++ l2, b ≠ 0 := by
  intro b hb
  rw [List.mem_append] at hb
  rcases hb with hb | hb
  · exact h1 b hb
  · exact h2 b hb

/-- One call keeps the output free of zero bytes when its string argument has none. -/
theorem apply_nonzero (outStream : List Nat) (op : Op) (hout : ∀ b ∈ outStream, b ≠ 0)
    (hs : ∀ b ∈ op.stringBytes, b ≠ 0) : ∀ b ∈ op.apply outStream, b ≠ 0 := by
  have hattr := fun (a : AttributeId) =>
    writeHeader_nonzero outStream ATTRIBUTE a.id (by decide) hout
  have hone : ∀ x : Nat, x ≠ 0 → ∀ b ∈ [x], b ≠ 0 := by
    intro x hx b hb
    rw [List.mem_singleton] at hb
    rw [hb]
    exact hx
  cases op with
  | openElement elemId =>
    exact writeHeader_nonzero outStream ELEMENT_START elemId.id (by decide) hout
  | closeElement elemId =>
    exact writeHeader_nonzero outStream ELEMENT_END elemId.id (by decide) hout
  | writeBool attribId val =>
    exact append_nonzero _ _ (hattr attribId) (hone _ (or_ne_zero_left _ _ (by decide)))
  | writeSignedInteger attribId val =>
    simp only [Op.apply, PackedEncode.writeSignedInteger]
    split_ifs
    · exact writeInteger_nonzero _ _ _ (by decide) (hattr attribId)
    · exact writeInteger_nonzero _ _ _ (by decide) (hattr attribId)
  | writeUnsignedInteger attribId val =>
    exact writeInteger_nonzero _ _ _ (by decide) (hattr attribId)
  | writeString attribId val =>
    exact append_nonzero _ _ (writeInteger_nonzero _ _ _ (by decide) (hattr attribId)) hs
  | writeStringIndexed attribId index val =>
    exact append_nonzero _ _
      (writeInteger_nonzero _ _ _ (by decide)
        (writeInteger_nonzero _ _ _ (by decide) (hattr attribId))) hs
  | writeSpace attribId spc =>
    cases spc with
    | basic index => exact writeInteger_nonzero _ _ _ (by decide) (hattr attribId)
    | stack => exact append_nonzero _ _ (hattr attribId) (hone _ (by decide))
    | join => exact append_nonzero _ _ (hattr attribId) (hone _ (by decide))
    | fspec => exact append_nonzero _ _ (hattr attribId) (hone _ (by decide))
    | iop => exact append_nonzero _ _ (hattr attribId) (hone _ (by decide))
    | spacebase => exact append_nonzero _ _ (hattr attribId) (hone _ (by decide))

/-- A sequence of calls keeps the output free of zero bytes when no string argument has
one. -/
theorem foldl_apply_nonzero (ops : List Op) :
    ∀ outStream : List Nat, (∀ b ∈ outStream, b ≠ 0) →
      (∀ op ∈ ops, ∀ b ∈ op.stringBytes, b ≠ 0) →
      ∀ b ∈ ops.foldl Op.apply outStream, b ≠ 0 := by
  induction ops with
  | nil =>
    intro outStream hout _
    exact hout
  | cons op rest ih =>
    intro outStream hout hs
    rw [List.foldl_cons]
    exact ih _ (apply_nonzero outStream op hout (hs op (List.mem_cons_self _ _)))
      (fun o ho => hs o (List.mem_cons_of_mem _ ho))

end PackedEncode

namespace PackedEncode

open PackedFormat PackedDecode

/-- C11, as stated, fails for a string holding a zero byte: the well-balanced sequence that
opens element 1, writes the two-byte string `'h', 0` under attribute 2 and closes the
element writes the zero byte of the string to the output. -/
theorem encode_string_with_zero_byte :
    wellBalanced [Op.openElement ⟨"e", 1⟩, Op.writeString ⟨"a", 2⟩ [104, 0],
      Op.closeElement ⟨"e", 1⟩] = true ∧
    encode [Op.openElement ⟨"e", 1⟩, Op.writeString ⟨"a", 2⟩ [104, 0],
      Op.closeElement ⟨"e", 1⟩] = [0x41, 0xc2, 0x71, 0x82, 104, 0, 0x81] ∧
    0 ∈ encode [Op.openElement ⟨"e", 1⟩, Op.writeString ⟨"a", 2⟩ [104, 0],
      Op.closeElement ⟨"e", 1⟩] := by
  have hcount : groupCount 2 = 1 := by
    simp [groupCount, RAWDATA_BITSPERBYTE]
  have henc : encode [Op.openElement ⟨"e", 1⟩, Op.writeString ⟨"a", 2⟩ [104, 0],
      Op.closeElement ⟨"e", 1⟩] = [0x41, 0xc2, 0x71, 0x82, 104, 0, 0x81] := by
    simp only [encode, List.foldl_cons, List.foldl_nil, Op.apply, PackedEncode.writeString,
      writeInteger, List.length_cons, List.length_nil, hcount]
    decide
  refine ⟨by decide, henc, ?_⟩
  rw [henc]
  decide

/-- C11 (amended): for every sequence of calls of the encoder, well balanced or not, with
arbitrary ids and values, every byte written to the output is different from 0 provided no
string passed to `writeString` or `writeStringIndexed` holds a zero byte; the bytes of a
string are written as they are. -/
theorem encode_bytes_nonzero (ops : List Op) (hs : ∀ op ∈ ops, 0 ∉ op.stringBytes) :
    ∀ b ∈ encode ops, b ≠ 0 := by
  unfold encode
  apply foldl_apply_nonzero ops [] (by simp)
  intro op hop b hb hzero
  rw [hzero] at hb
  exact hs op hop hb

/-- Instance of the amended C11: an element with the string attribute `"hi"`. -/
theorem encode_bytes_nonzero_witness :
    (∀ op ∈ [Op.openElement ⟨"e", 1⟩, Op.writeString ⟨"a", 2⟩ [104, 105],
      Op.closeElement ⟨"e", 1⟩], 0 ∉ op.stringBytes) ∧
    ∀ b ∈ encode [Op.openElement ⟨"e", 1⟩, Op.writeString ⟨"a", 2⟩ [104, 105],
      Op.closeElement ⟨"e", 1⟩], b ≠ 0 :=
  ⟨by decide, encode_bytes_nonzero _ (by decide)⟩

end PackedEncode
